import Mathlib

/-!
# amend-random: schema generation, driver loop, barrier set-up

A shallow embedding of `main.go`.  Go slices that are only read or locally
rebuilt are lists; a runtime failure of the Go program (an index out of range,
a negative `make` length) is the `panic` result of `Exec`.
-/

namespace AmendRandom

/-- Result of running a piece of Go code: it returns a value, it stops with a
runtime failure, or the model ran out of loop fuel. -/
inductive Exec (α : Type) where
  | ret (a : α)
  | panic (msg : String)
  | fuelOut
  deriving DecidableEq

/-- Sequencing of two pieces of Go code. -/
def Exec.bind {α β : Type} (x : Exec α) (f : α → Exec β) : Exec β :=
  match x with
  | .ret a => f a
  | .panic m => .panic m
  | .fuelOut => .fuelOut

/-- Modelled from the spec: the declaration of `kv.DataType` is not part of
`main.go`; the spec only singles out the "small enumerable type" `kv.TinyInt`,
every other data type is kept by its numeric tag. -/
inductive DataType where
  | TinyInt
  | other (tag : Nat)
  deriving DecidableEq

/-- The struct `ColumnType`. -/
structure ColumnType where
  i : Int
  name : String
  tp : DataType
  len : Int
  null : Bool
  deriving DecidableEq

/-- The constructor function `NewColumnType`. -/
def NewColumnType (i : Int) (name : String) (tp : DataType) (len : Int) (null : Bool) :
    ColumnType :=
  { i := i, name := name, tp := tp, len := len, null := null }

/-- The package variable `columnLeast`. -/
def columnLeast : Int := 2

/-- The package variable `columnMost`. -/
def columnMost : Int := 200

/-- The outcome of the random draws of one call of `rdColumns`: the value of
`util.RdRange(columnLeast, columnMost)`, and the results of the `i`-th calls of
`kv.RdType()` and `util.RdBool()`. -/
structure Draws where
  colCnt : Int
  tps : Nat → DataType
  nulls : Nat → Bool

/-- The drawn column count lies in the configured range. -/
def Draws.inRange (r : Draws) : Prop :=
  columnLeast ≤ r.colCnt ∧ r.colCnt ≤ columnMost

/-- The value of the variable `colCnt` after the adjustment in `rdColumns`. -/
def effColCnt (r : Draws) (least : Int) : Int :=
  if r.colCnt < least then least else r.colCnt

/-- The function `rdColumns`; `size` is the method `kv.DataType.Size`. -/
def rdColumns (r : Draws) (size : DataType → Int) (least : Int) : Exec (List ColumnType) :=
  let colCnt := effColCnt r least
  if colCnt < 0 then .panic "makeslice: len out of range"
  else
    .ret ((List.range colCnt.toNat).map fun (i : Nat) =>
      NewColumnType (Int.ofNat i) ("col_" ++ toString i) (r.tps i) (size (r.tps i)) (r.nulls i))

/-- The loop condition of `RdColumnsAndPk`:
`pi < len(columns) && columns[pi-1].tp == kv.TinyInt || pi <= 2`. -/
def pkCond (pi : Nat) (columns : List ColumnType) : Bool :=
  (decide (pi < columns.length) &&
      (match columns[pi - 1]? with
       | some c => decide (c.tp = DataType.TinyInt)
       | none => false))
    || decide (pi ≤ 2)

/-- The `for` loop of `RdColumnsAndPk`, started at loop counter `pi`. -/
def pkLoop : Nat → Nat → List ColumnType → List ColumnType →
    Exec (List ColumnType × List ColumnType)
  | 0, _, _, _ => .fuelOut
  | fuel + 1, pi, columns, primary =>
    if pkCond pi columns then
      match columns[pi]? with
      | none => .panic "index out of range"
      | some c =>
        let c1 : ColumnType := { c with null := false }
        pkLoop fuel (pi + 1) (columns.set pi c1) (primary ++ [c1])
    else .ret (columns, primary)

/-- The function `RdColumnsAndPk`. -/
def RdColumnsAndPk (r : Draws) (size : DataType → Int) (leastCol : Int) :
    Exec (List ColumnType × List ColumnType) :=
  (rdColumns r size leastCol).bind fun columns =>
    match columns[0]? with
    | none => .panic "index out of range"
    | some c =>
      let c0 : ColumnType := { c with null := false }
      pkLoop (columns.length + 3) 1 (columns.set 0 c0) [c0]

/-- Clear the `null` flag of a column. -/
def ColumnType.notNull (c : ColumnType) : ColumnType := { c with null := false }

/-- The column list with the `null` flag of its first `k` entries cleared. -/
def markNotNull : Nat → List ColumnType → List ColumnType
  | 0, l => l
  | _ + 1, [] => []
  | k + 1, c :: l => c.notNull :: markNotNull k l

/-- The type of the column at position `i`, if there is one. -/
def tpAt (l : List ColumnType) (i : Nat) : Option DataType := (l[i]?).map fun c => c.tp

/-- The package variable `mbSize`. -/
def mbSize : Int := 1048576

/-- The value of `leastCol` that `once` passes to `RdColumnsAndPk`, for the
value of the package variable `txnSize`. -/
def onceLeastCol (txnSize : Int) : Int :=
  if txnSize ≥ 200 * mbSize then 100 else 10

/-- The method `kv.DataType.Size` taken as constantly 0 (no length suffix). -/
def sizeZero : DataType → Int := fun _ => 0

/-- A concrete outcome of the draws: 2 columns, none of them `TinyInt`. -/
def drawsTwo : Draws :=
  { colCnt := 2, tps := fun _ => DataType.other 1, nulls := fun _ => true }

/-- A concrete outcome of the draws: 4 columns, none of them `TinyInt`. -/
def drawsFour : Draws :=
  { colCnt := 4, tps := fun _ => DataType.other 1, nulls := fun _ => true }

/-- A concrete outcome of the draws: 5 nullable columns, only `col_2` is `TinyInt`. -/
def drawsFive : Draws :=
  { colCnt := 5
    tps := fun i => if i = 2 then DataType.TinyInt else DataType.other 1
    nulls := fun _ => true }

/-- The conclusions `result.Success`, `result.Failure` and `result.TimedOut`. -/
inductive Conclusion where
  | Success
  | Failure
  | TimedOut
  deriving DecidableEq

/-- What the `select` of one round of `main` receives: `nil` or an error on
`errCh`, or the expiry of the round's deadline on `ctx.Done()`. -/
inductive RoundOutcome where
  | success
  | failure
  | timedOut
  deriving DecidableEq

/-- The variables `round` and `conclusion` of `main`. -/
structure LoopState where
  round : Nat
  conclusion : Conclusion
  deriving DecidableEq

/-- One pass through the body of the `for` loop of `main`: the new state and
whether the pass ends in `return`. -/
def roundStep (failfast : Bool) (totalRound : Int) (st : LoopState) (o : RoundOutcome) :
    LoopState × Bool :=
  let round := st.round + 1
  match o with
  | .timedOut => ({ round := round, conclusion := .TimedOut }, true)
  | .failure =>
    if failfast then ({ round := round, conclusion := .Failure }, true)
    else ({ round := round, conclusion := .Failure },
      decide (totalRound ≠ 0) && decide (totalRound ≤ (round : Int)))
  | .success =>
    ({ round := round, conclusion := st.conclusion },
      decide (totalRound ≠ 0) && decide (totalRound ≤ (round : Int)))

/-- The `for` loop of `main` over the outcomes of the successive rounds; `none`
when the loop is still running after the last listed outcome. -/
def mainLoop (failfast : Bool) (totalRound : Int) :
    LoopState → List RoundOutcome → Option LoopState
  | _, [] => none
  | st, o :: rest =>
    match roundStep failfast totalRound st o with
    | (st1, true) => some st1
    | (st1, false) => mainLoop failfast totalRound st1 rest

/-- The exit of the process: the number of rounds executed, the reported
conclusion and the exit code. -/
structure MainExit where
  rounds : Nat
  conclusion : Conclusion
  exitCode : Nat
  deriving DecidableEq

/-- The deferred function of `main`: `os.Exit(1)` unless the conclusion is
`result.Success`. -/
def exitOf (st : LoopState) : MainExit :=
  { rounds := st.round
    conclusion := st.conclusion
    exitCode := if st.conclusion ≠ Conclusion.Success then 1 else 0 }

/-- The driver part of `main`, from `round, conclusion := 0, result.Success`. -/
def mainRun (failfast : Bool) (totalRound : Int) (outs : List RoundOutcome) : Option MainExit :=
  (mainLoop failfast totalRound { round := 0, conclusion := .Success } outs).map exitOf

/-- The text that `GenCreateTableStmt` writes for one column; `tpStr` is the
`%s` formatting of a `kv.DataType`. -/
def colText (tpStr : DataType → String) (column : ColumnType) : String :=
  let b :=
    if column.len > 0 then
      column.name ++ " " ++ tpStr column.tp ++ "(" ++ toString column.len ++ ")"
    else column.name ++ " " ++ tpStr column.tp
  let b := if !column.null then b ++ " NOT" else b
  b ++ " NULL"

/-- The `range columns` loop of `GenCreateTableStmt`, at index `i`, for a slice
of length `n`, appending to the builder `b`. -/
def genColumns (tpStr : DataType → String) (n : Nat) : Nat → List ColumnType → String → String
  | _, [], b => b
  | i, column :: rest, b =>
    let b := b ++ colText tpStr column
    let b := if (i : Int) ≠ (n : Int) - 1 then b ++ ",\n" else b
    genColumns tpStr n (i + 1) rest b

/-- The slice `indexes` of `GenCreateTableStmt`; `clusteredIndex` is the
package variable of that name. -/
def genIndexes (clusteredIndex : Bool) (primary : List ColumnType) : List String :=
  if primary.length > 0 then
    let columns := primary.map fun c => c.name
    let clustered := if clusteredIndex then "CLUSTERED" else ""
    ["PRIMARY KEY(" ++ ", ".intercalate columns ++ ") " ++ clustered]
  else []

/-- The function `GenCreateTableStmt`. -/
def GenCreateTableStmt (tpStr : DataType → String) (clusteredIndex : Bool)
    (columns primary : List ColumnType) (tableName : String) : String :=
  let b := "CREATE TABLE IF NOT EXISTS " ++ tableName ++ "(\n"
  let b := genColumns tpStr columns.length 0 columns b
  let b := (genIndexes clusteredIndex primary).foldl (fun b index => b ++ ",\n" ++ index) b
  b ++ ")"

/-- A Go slice of `ColumnType`: a window of `len` entries, from offset `off`,
of the backing array at address `arr`. -/
structure Slice where
  arr : Nat
  off : Nat
  len : Nat
  deriving DecidableEq

/-- The backing arrays allocated so far, by address; `next` is the first free
address. -/
structure Heap where
  arrays : Nat → List ColumnType
  next : Nat

/-- The entries of a slice. -/
def Heap.load (h : Heap) (s : Slice) : List ColumnType :=
  ((h.arrays s.arr).drop s.off).take s.len

/-- A slice of the heap: its array is allocated and holds the window. -/
def Heap.valid (h : Heap) (s : Slice) : Prop :=
  s.arr < h.next ∧ s.off + s.len ≤ (h.arrays s.arr).length

/-- The index expression `s[i]`. -/
def Heap.index (h : Heap) (s : Slice) (i : Nat) : Exec ColumnType :=
  match (h.load s)[i]? with
  | some c => .ret c
  | none => .panic "index out of range"

/-- The assignment `s[i] = c`. -/
def Heap.assign (h : Heap) (s : Slice) (i : Nat) (c : ColumnType) : Exec Heap :=
  if i < (h.load s).length then
    .ret { h with
      arrays := Function.update h.arrays s.arr ((h.arrays s.arr).set (s.off + i) c) }
  else .panic "index out of range"

/-- The allocation `make([]ColumnType, n)`; `zero` is the zero value of
`ColumnType`. -/
def Heap.make (h : Heap) (zero : ColumnType) (n : Nat) : Heap × Slice :=
  ({ arrays := Function.update h.arrays h.next (List.replicate n zero), next := h.next + 1 },
    { arr := h.next, off := 0, len := n })

/-- The assignment `s[i].null = b`. -/
def Heap.setNull (h : Heap) (s : Slice) (i : Nat) (b : Bool) : Exec Heap :=
  (h.index s i).bind fun c => h.assign s i { c with null := b }

/-- The loop of `CloneColumns`, with `n` passes left, at index `i`. -/
def cloneLoop (source res : Slice) : Nat → Nat → Heap → Exec Heap
  | 0, _, h => .ret h
  | n + 1, i, h =>
    (h.index source i).bind fun c =>
      (h.assign res i { i := c.i, name := c.name, tp := c.tp, len := c.len, null := c.null }).bind
        fun h1 => cloneLoop source res n (i + 1) h1

/-- The function `CloneColumns`. -/
def CloneColumns (zero : ColumnType) (h : Heap) (source : Slice) : Exec (Heap × Slice) :=
  let (h1, res) := h.make zero source.len
  (cloneLoop source res source.len 0 h1).bind fun h2 => .ret (h2, res)

/-- The rendering of `GenCreateTableStmt` on slices of the heap. -/
def GenCreateTableStmtAt (tpStr : DataType → String) (clusteredIndex : Bool) (h : Heap)
    (columns primary : Slice) (tableName : String) : String :=
  GenCreateTableStmt tpStr clusteredIndex (h.load columns) (h.load primary) tableName

/-- A concrete heap: one array of two columns at address 0. -/
def heapTwo : Heap :=
  { arrays := fun a =>
      if a = 0 then
        [{ i := 0, name := "col_0", tp := DataType.TinyInt, len := 3, null := false },
         { i := 1, name := "col_1", tp := DataType.other 1, len := 0, null := true }]
      else []
    next := 1 }

/-- The values of the map `modeMap`: the DDL mutator functions. -/
inductive DdlRandom where
  | CreateIndex
  | DropIndex
  | CreateUniqueIndex
  | DropUniqueIndex
  | AddColumn
  | DropColumn
  | ChangeColumnSize
  | ChangeColumnType
  deriving DecidableEq

/-- The values of the map `dmlExecutors`. -/
inductive DMLExecutor where
  | UpdateConflictExecutor
  | InsertUpdateExecutor
  deriving DecidableEq

/-- The map `modeMap`. -/
def modeMap (k : String) : Option DdlRandom :=
  if k = "create-index" then some .CreateIndex
  else if k = "drop-index" then some .DropIndex
  else if k = "create-unique-index" then some .CreateUniqueIndex
  else if k = "drop-unique-index" then some .DropUniqueIndex
  else if k = "add-column" then some .AddColumn
  else if k = "drop-column" then some .DropColumn
  else if k = "change-column-size" then some .ChangeColumnSize
  else if k = "change-column-type" then some .ChangeColumnType
  else none

/-- The map `dmlExecutors`. -/
def dmlExecutors (k : String) : Option DMLExecutor :=
  if k = "update-conflict" then some .UpdateConflictExecutor
  else if k = "insert-update" then some .InsertUpdateExecutor
  else none

/-- Go's `unicode.IsSpace`. -/
def goIsSpace (c : Char) : Bool :=
  c = '\t' || c = '\n' || c.val = 0x0B || c.val = 0x0C || c = '\r' || c = ' ' ||
  c.val = 0x85 || c.val = 0xA0 || c.val = 0x1680 || (0x2000 ≤ c.val && c.val ≤ 0x200A) ||
  c.val = 0x2028 || c.val = 0x2029 || c.val = 0x202F || c.val = 0x205F || c.val = 0x3000

/-- Go's `strings.TrimSpace`. -/
def TrimSpace (s : String) : String :=
  String.mk ((s.data.dropWhile goIsSpace).reverse.dropWhile goIsSpace).reverse

/-- Go's `strings.Split(s, ",")` on the characters of `s`; `cur` is the piece
being read, reversed. -/
def splitComma : List Char → List Char → List String
  | [], cur => [String.mk cur.reverse]
  | c :: cs, cur =>
    if c = ',' then String.mk cur.reverse :: splitComma cs []
    else splitComma cs (c :: cur)

/-- The character class `[0-9a-zA-Z_]` of `dbnamePattern`. -/
def isWordChar (c : Char) : Bool :=
  ('0' ≤ c && c ≤ '9') || ('a' ≤ c && c ≤ 'z') || ('A' ≤ c && c ≤ 'Z') || c = '_'

/-- The split of a text at the last `/` that is followed by a character of
`[0-9a-zA-Z_]`: the text up to and including that `/`, and the rest. This is
where the greedy group `(.*\/)` of `dbnamePattern` ends. -/
def splitLastSlash : List Char → Option (List Char × List Char)
  | [] => none
  | c :: cs =>
    match splitLastSlash cs with
    | some (pre, rest) => some (c :: pre, rest)
    | none =>
      if c = '/' && (match cs with
          | d :: _ => isWordChar d
          | [] => false) then some ([c], cs)
      else none

/-- The call `dbnamePattern.FindStringSubmatch(s)` for the pattern
`^(.*\/)([0-9a-zA-Z_]+)\??.*$`: `nil` (the empty list) when there is no match
(`.` does not match a newline), else the whole match and the two groups. -/
def FindStringSubmatch (s : String) : List String :=
  if s.data.any (fun c => c = '\n') then []
  else
    match splitLastSlash s.data with
    | none => []
    | some (pre, rest) => [s, String.mk pre, String.mk (rest.takeWhile isWordChar)]

/-- The command-line flags read by `initMode`. -/
structure Flags where
  mode : String
  txnSizeStr : String
  dmlExecutorName : String
  dsn1 : String
  dsn2 : String
  deriving DecidableEq

/-- The package variables written by `initMode`. -/
structure Globals where
  selectedModes : List String
  modeFns : List DdlRandom
  txnSize : Int
  dmlExecutor : Option DMLExecutor
  dsn1NoDB : String
  dsn2NoDB : String
  dbname : String
  deriving DecidableEq

/-- The package variables before `initMode` runs. -/
def Globals.initial : Globals :=
  { selectedModes := [], modeFns := [], txnSize := 0, dmlExecutor := none,
    dsn1NoDB := "", dsn2NoDB := "", dbname := "" }

/-- The `range selectedModes` loop of `initMode` at index `i`: the error it
returns with, if any, and the values of `selectedModes` and `modeFns`; `set` is
the local map of the modes seen. -/
def modeLoop : List String → Nat → List String → List String → List DdlRandom →
    Option String × List String × List DdlRandom
  | [], _, sel, _, fns => (none, sel, fns)
  | m :: rest, i, sel, set, fns =>
    let m := TrimSpace m
    if m = "" then modeLoop rest (i + 1) sel set fns
    else
      match modeMap m with
      | none => (some ("mode " ++ m ++ " not supportted"), sel, fns)
      | some fn =>
        modeLoop rest (i + 1) (sel.set i m) (m :: set) (if m ∈ set then fns else fns ++ [fn])

/-- The index expression `groups[i]` on a slice of strings. -/
def strAt (groups : List String) (i : Nat) : Exec String :=
  match groups[i]? with
  | some s => .ret s
  | none => .panic "index out of range"

/-- The function `initMode`: the returned error (`none` for `nil`) and the
package variables; `ramInBytes` is `units.RAMInBytes`. -/
def initMode (ramInBytes : String → Except String Int) (f : Flags) (g : Globals) :
    Exec (Option String × Globals) :=
  let tokens := splitComma f.mode.data []
  match modeLoop tokens 0 tokens [] g.modeFns with
  | (some e, sel, fns) => .ret (some e, { g with selectedModes := sel, modeFns := fns })
  | (none, sel, fns) =>
    let g := { g with selectedModes := sel, modeFns := fns }
    let sized : Except String Globals :=
      if f.txnSizeStr ≠ "" then
        match ramInBytes f.txnSizeStr with
        | .ok n => .ok { g with txnSize := n }
        | .error e => .error e
      else .ok g
    match sized with
    | .error e => .ret (some e, g)
    | .ok g =>
      match dmlExecutors f.dmlExecutorName with
      | none => .ret (some ("invalid dml executor name `" ++ f.dmlExecutorName ++ "`"), g)
      | some e =>
        let g := { g with dmlExecutor := some e }
        (strAt (FindStringSubmatch f.dsn1) 1).bind fun s1 =>
          let g := { g with dsn1NoDB := s1 }
          (strAt (FindStringSubmatch f.dsn2) 1).bind fun s2 =>
            let g := { g with dsn2NoDB := s2 }
            (strAt (FindStringSubmatch f.dsn1) 2).bind fun s3 =>
              .ret (none, { g with dbname := s3 })

/-- The flags as `init` declares their defaults, with the executor
`update-conflict`. -/
def defaultFlags : Flags :=
  { mode := "", txnSizeStr := "", dmlExecutorName := "update-conflict",
    dsn1 := "root:@tcp(127.0.0.1:4000)/test?tidb_enable_amend_pessimistic_txn=1",
    dsn2 := "" }

/-- A `sync.WaitGroup`: its counter. -/
structure WaitGroup where
  counter : Int
  deriving DecidableEq

/-- The method `(*sync.WaitGroup).Add`; a negative counter is a runtime failure. -/
def WaitGroup.Add (wg : WaitGroup) (delta : Int) : Exec WaitGroup :=
  if wg.counter + delta < 0 then .panic "sync: negative WaitGroup counter"
  else .ret { counter := wg.counter + delta }

/-- The method `(*sync.WaitGroup).Wait` returns at once exactly when the
counter is zero; otherwise the caller blocks. -/
def WaitGroup.waitReturns (wg : WaitGroup) : Bool := decide (wg.counter = 0)

/-- The five wait groups declared by `once`. -/
structure Barriers where
  wg : WaitGroup
  readyDMLWg : WaitGroup
  readyDDLWg : WaitGroup
  doneInsertWg : WaitGroup
  readyCommitWg : WaitGroup
  deriving DecidableEq

/-- The zero values of the `var (...)` block of `once`. -/
def Barriers.zero : Barriers :=
  { wg := ⟨0⟩, readyDMLWg := ⟨0⟩, readyDDLWg := ⟨0⟩, doneInsertWg := ⟨0⟩, readyCommitWg := ⟨0⟩ }

/-- What `once` has set up when it calls `dmlExecutor`: the wait groups handed
to every task, the mutators started by `go fn(...)` in the order of `modeFns`,
and the number of DML workers passed in the options. -/
structure Launch where
  barriers : Barriers
  mutators : List DdlRandom
  dmlThread : Int
  deriving DecidableEq

/-- Lines 384 to 410 of `once`: the five `Add` calls, then the `go` statements
over `modeFns`, then the call of `dmlExecutor`. -/
def onceLaunch (dmlThread : Int) (modeFns : List DdlRandom) : Exec Launch :=
  let b := Barriers.zero
  (b.wg.Add dmlThread).bind fun wg =>
  (b.doneInsertWg.Add dmlThread).bind fun doneInsertWg =>
  (b.readyDDLWg.Add dmlThread).bind fun readyDDLWg =>
  (b.readyDMLWg.Add (modeFns.length : Int)).bind fun readyDMLWg =>
  (b.readyCommitWg.Add (modeFns.length : Int)).bind fun readyCommitWg =>
    .ret
      { barriers :=
          { wg := wg, readyDMLWg := readyDMLWg, readyDDLWg := readyDDLWg,
            doneInsertWg := doneInsertWg, readyCommitWg := readyCommitWg }
        mutators := modeFns
        dmlThread := dmlThread }

/-- The tasks of one round: the `d`-th DDL mutator started by `once`, or the
`w`-th DML worker of the executor. -/
inductive TaskId where
  | mutator (d : Nat)
  | worker (w : Nat)
  deriving DecidableEq

/-- The entries of the Execution Log that the ordering is about: worker `w`
has opened its transaction, mutator `d` has submitted its DDL statement,
worker `w` has issued its commit. -/
inductive Event where
  | opened (w : Nat)
  | ddl (d : Nat)
  | commit (w : Nat)
  deriving DecidableEq

/-- The state of the tasks of a round under the three barriers: the wait
groups, the program counter of every mutator and of every worker, and the
events so far, oldest first. -/
structure ProtoState where
  readyDML : WaitGroup
  readyDDL : WaitGroup
  readyCommit : WaitGroup
  mutPc : List Nat
  wrkPc : List Nat
  log : List Event
  deriving DecidableEq

/-- The method `(*sync.WaitGroup).Done`, `none` when it is a runtime failure. -/
def WaitGroup.Done (wg : WaitGroup) : Option WaitGroup :=
  match wg.Add (-1) with
  | .ret w => some w
  | _ => none

/-- Modelled from the spec: the DDL mutator functions (`CreateIndex`, ...) are
not part of `main.go`. Section 4.3: a mutator signals `readyDML` before
altering the table (step 0), waits on `readyDDL` (1), issues its statement
(2), signals `readyCommit` (3) and is finished (4). `none`: the task is
blocked, finished or absent, or the step is a runtime failure. -/
def stepMutator (st : ProtoState) (d : Nat) : Option ProtoState :=
  match st.mutPc[d]? with
  | some 0 => (st.readyDML.Done).map fun wg => { st with readyDML := wg, mutPc := st.mutPc.set d 1 }
  | some 1 => if st.readyDDL.waitReturns then some { st with mutPc := st.mutPc.set d 2 } else none
  | some 2 => some { st with mutPc := st.mutPc.set d 3, log := st.log ++ [Event.ddl d] }
  | some 3 =>
    (st.readyCommit.Done).map fun wg => { st with readyCommit := wg, mutPc := st.mutPc.set d 4 }
  | _ => none

/-- Modelled from the spec: the DML executors (`UpdateConflictExecutor`,
`InsertUpdateExecutor`) are not part of `main.go`. Section 4.3: a worker waits
on `readyDML` (step 0), opens its transaction (1), signals `readyDDL` (2),
waits on `readyCommit` (3), commits (4) and is finished (5). -/
def stepWorker (st : ProtoState) (w : Nat) : Option ProtoState :=
  match st.wrkPc[w]? with
  | some 0 => if st.readyDML.waitReturns then some { st with wrkPc := st.wrkPc.set w 1 } else none
  | some 1 => some { st with wrkPc := st.wrkPc.set w 2, log := st.log ++ [Event.opened w] }
  | some 2 => (st.readyDDL.Done).map fun wg => { st with readyDDL := wg, wrkPc := st.wrkPc.set w 3 }
  | some 3 => if st.readyCommit.waitReturns then some { st with wrkPc := st.wrkPc.set w 4 } else none
  | some 4 => some { st with wrkPc := st.wrkPc.set w 5, log := st.log ++ [Event.commit w] }
  | _ => none

/-- One step of the task chosen by the scheduler. -/
def stepTask (st : ProtoState) : TaskId → Option ProtoState
  | .mutator d => stepMutator st d
  | .worker w => stepWorker st w

/-- The run of a schedule: the tasks take their steps in the listed order;
`none` when the schedule asks for a step that cannot be taken. -/
def runSchedule : ProtoState → List TaskId → Option ProtoState
  | st, [] => some st
  | st, t :: rest =>
    match stepTask st t with
    | some st1 => runSchedule st1 rest
    | none => none

/-- The state in which `once` leaves the tasks: the wait groups as allocated,
one mutator per entry of `modeFns`, `dmlThread` workers, nothing logged. -/
def protoInit (l : Launch) : ProtoState :=
  { readyDML := l.barriers.readyDMLWg
    readyDDL := l.barriers.readyDDLWg
    readyCommit := l.barriers.readyCommitWg
    mutPc := l.mutators.map fun _ => 0
    wrkPc := List.replicate l.dmlThread.toNat 0
    log := [] }

/-- A schedule of one mutator and two workers that runs every task to its end. -/
def scheduleOneTwo : List TaskId :=
  [.mutator 0, .worker 0, .worker 1, .worker 1, .worker 0, .worker 0, .worker 1, .mutator 0,
   .mutator 0, .mutator 0, .worker 1, .worker 0, .worker 0, .worker 1]

/-- The invariant of the barrier protocol for `D` mutators and `W` workers:
every wait group counts at least the tasks that have not yet signalled it,
the log holds the events of the steps already taken, and the two orderings
hold in the log. -/
structure ProtoInv (D W : Nat) (st : ProtoState) : Prop where
  lenM : st.mutPc.length = D
  lenW : st.wrkPc.length = W
  cDML : ((st.mutPc.countP fun pc => decide (pc ≤ 0) : Nat) : Int) ≤ st.readyDML.counter
  cDDL : ((st.wrkPc.countP fun pc => decide (pc ≤ 2) : Nat) : Int) ≤ st.readyDDL.counter
  cCommit : ((st.mutPc.countP fun pc => decide (pc ≤ 3) : Nat) : Int) ≤ st.readyCommit.counter
  wOpened : ∀ (w pc : Nat), st.wrkPc[w]? = some pc → 2 ≤ pc → Event.opened w ∈ st.log
  mDdl : ∀ (d pc : Nat), st.mutPc[d]? = some pc → 3 ≤ pc → Event.ddl d ∈ st.log
  mPast : ∀ (d pc : Nat), st.mutPc[d]? = some pc → 2 ≤ pc → ∀ w, w < W → Event.opened w ∈ st.log
  wPast : ∀ (w pc : Nat), st.wrkPc[w]? = some pc → 4 ≤ pc → ∀ d, d < D → Event.ddl d ∈ st.log
  ordDdl : ∀ (j d : Nat), st.log[j]? = some (Event.ddl d) →
    ∀ w, w < W → ∃ i : Nat, i < j ∧ st.log[i]? = some (Event.opened w)
  ordCommit : ∀ (j w : Nat), st.log[j]? = some (Event.commit w) →
    ∀ d, d < D → ∃ i : Nat, i < j ∧ st.log[i]? = some (Event.ddl d)
  wGate : ∀ (w pc : Nat), st.wrkPc[w]? = some pc → 4 ≤ pc → st.readyCommit.counter ≤ 0
  cGate : ∀ w, Event.commit w ∈ st.log → st.readyCommit.counter ≤ 0
  ordStrict : ∀ (i j w d : Nat), st.log[i]? = some (Event.commit w) →
    st.log[j]? = some (Event.ddl d) → j < i

/-! ## Schema generation -/

theorem length_markNotNull (k : Nat) (l : List ColumnType) :
    (markNotNull k l).length = l.length := by
  induction k generalizing l with
  | zero => rfl
  | succ k ih =>
    cases l with
    | nil => rfl
    | cons c l => simp [markNotNull, ih]

theorem getElem?_markNotNull (k : Nat) (l : List ColumnType) (i : Nat) :
    (markNotNull k l)[i]? = (l[i]?).map fun c => if i < k then c.notNull else c := by
  induction k generalizing l i with
  | zero => simp [markNotNull]
  | succ k ih =>
    cases l with
    | nil => simp [markNotNull]
    | cons c l =>
      cases i with
      | zero => simp [markNotNull]
      | succ i => simp [markNotNull, ih]

theorem tpAt_markNotNull (k : Nat) (l : List ColumnType) (i : Nat) :
    tpAt (markNotNull k l) i = tpAt l i := by
  unfold tpAt
  rw [getElem?_markNotNull]
  cases l[i]? with
  | none => rfl
  | some c => by_cases h : i < k <;> simp [h, ColumnType.notNull]

theorem set_markNotNull (k : Nat) (l : List ColumnType) (c : ColumnType)
    (h : l[k]? = some c) : (markNotNull k l).set k c.notNull = markNotNull (k + 1) l := by
  induction k generalizing l with
  | zero =>
    cases l with
    | nil => simp at h
    | cons d l =>
      simp at h
      simp [markNotNull, h]
  | succ k ih =>
    cases l with
    | nil => simp at h
    | cons d l =>
      simp at h
      have := ih l h
      simp [markNotNull] at this ⊢
      exact this

theorem take_markNotNull_succ (k : Nat) (l : List ColumnType) (c : ColumnType)
    (h : l[k]? = some c) :
    (markNotNull k l).take k ++ [c.notNull] = (markNotNull (k + 1) l).take (k + 1) := by
  induction k generalizing l with
  | zero =>
    cases l with
    | nil => simp at h
    | cons d l =>
      simp at h
      simp [markNotNull, h]
  | succ k ih =>
    cases l with
    | nil => simp at h
    | cons d l =>
      simp at h
      have := ih l h
      simp [markNotNull] at this ⊢
      exact this

theorem pkCond_markNotNull (pi : Nat) (l : List ColumnType) :
    pkCond pi (markNotNull pi l) = true ↔
      (pi < l.length ∧ tpAt l (pi - 1) = some DataType.TinyInt) ∨ pi ≤ 2 := by
  have ht := tpAt_markNotNull pi l (pi - 1)
  unfold tpAt at ht
  unfold pkCond
  rw [length_markNotNull]
  unfold tpAt
  cases h1 : (markNotNull pi l)[pi - 1]? with
  | none =>
    rw [h1] at ht
    cases h2 : l[pi - 1]? with
    | none => simp
    | some c => rw [h2] at ht; simp at ht
  | some c =>
    rw [h1] at ht
    cases h2 : l[pi - 1]? with
    | none => rw [h2] at ht; simp at ht
    | some d =>
      rw [h2] at ht
      simp at ht
      simp [ht]

/-- The loop of `RdColumnsAndPk` on a column list of at least 3 entries: it
returns, at the least `k ≥ max pi 3` that is the length or follows a column
that is not `TinyInt`. -/
theorem pkLoop_markNotNull (l : List ColumnType) (hl : 3 ≤ l.length) :
    ∀ (d pi fuel : Nat), l.length - pi = d → 1 ≤ pi → pi ≤ l.length → d + 1 ≤ fuel →
      ∃ k, pi ≤ k ∧ 3 ≤ k ∧ k ≤ l.length ∧
        (k = l.length ∨ tpAt l (k - 1) ≠ some DataType.TinyInt) ∧
        (∀ j, pi ≤ j → 3 ≤ j → j < k → tpAt l (j - 1) = some DataType.TinyInt) ∧
        pkLoop fuel pi (markNotNull pi l) ((markNotNull pi l).take pi) =
          .ret (markNotNull k l, (markNotNull k l).take k) := by
  intro d
  induction d with
  | zero =>
    intro pi fuel hd h1 hle hf
    have hpi : pi = l.length := by omega
    obtain ⟨fuel, rfl⟩ : ∃ f, fuel = f + 1 := ⟨fuel - 1, by omega⟩
    refine ⟨pi, le_refl _, by omega, hle, Or.inl hpi, fun j h2 _ h3 => by omega, ?_⟩
    have hc : pkCond pi (markNotNull pi l) = false := by
      rw [Bool.eq_false_iff]
      intro h
      rw [pkCond_markNotNull pi l] at h
      omega
    simp [pkLoop, hc]
  | succ d ih =>
    intro pi fuel hd h1 hle hf
    obtain ⟨fuel, rfl⟩ : ∃ f, fuel = f + 1 := ⟨fuel - 1, by omega⟩
    have hlt : pi < l.length := by omega
    by_cases hc : pkCond pi (markNotNull pi l) = true
    · obtain ⟨c, hcol⟩ : ∃ c, l[pi]? = some c := ⟨l[pi], List.getElem?_eq_getElem hlt⟩
      have hget : (markNotNull pi l)[pi]? = some c := by
        rw [getElem?_markNotNull, hcol]; simp
      obtain ⟨k, hk1, hk2, hk3, hk4, hk5, hk6⟩ :=
        ih (pi + 1) fuel (by omega) (by omega) (by omega) (by omega)
      refine ⟨k, by omega, hk2, hk3, hk4, ?_, ?_⟩
      · intro j hj1 hj2 hj3
        by_cases hj : j = pi
        · subst hj
          rw [pkCond_markNotNull j l] at hc
          rcases hc with hc | hc
          · exact hc.2
          · omega
        · exact hk5 j (by omega) hj2 hj3
      · rw [pkLoop, if_pos hc, hget]
        have hs := set_markNotNull pi l c hcol
        have ht := take_markNotNull_succ pi l c hcol
        simp only [ColumnType.notNull] at hs ht
        simp only []
        rw [hs, ht]
        exact hk6
    · have hc2 := hc
      rw [pkCond_markNotNull pi l] at hc2
      refine ⟨pi, le_refl _, by omega, hle, Or.inr ?_, fun j h2 _ h3 => by omega, ?_⟩
      · intro h
        exact hc2 (Or.inl ⟨hlt, h⟩)
      · simp [pkLoop, hc]

theorem rdColumns_ret (r : Draws) (size : DataType → Int) (least : Int)
    (h : 0 ≤ effColCnt r least) :
    ∃ gen, rdColumns r size least = .ret gen ∧ gen.length = (effColCnt r least).toNat ∧
      ∀ i, i < gen.length → (gen[i]?).map (fun c => c.name) = some ("col_" ++ toString i) := by
  refine ⟨(List.range (effColCnt r least).toNat).map fun (i : Nat) =>
      NewColumnType (Int.ofNat i) ("col_" ++ toString i) (r.tps i) (size (r.tps i)) (r.nulls i),
    ?_, ?_, ?_⟩
  · unfold rdColumns
    simp only []
    rw [if_neg (by omega)]
  · simp
  · intro i hi
    rw [List.length_map, List.length_range] at hi
    simp [List.getElem?_range hi, NewColumnType]

/-- Invariant of the loop of `RdColumnsAndPk`: whenever it returns, the key is
made of non-nullable columns and is no longer than the column list. -/
theorem pkLoop_ret_inv : ∀ (fuel pi : Nat) (cols pk cols1 pk1 : List ColumnType),
    pkLoop fuel pi cols pk = .ret (cols1, pk1) → pk.length = pi → pi ≤ cols.length →
    (∀ c ∈ pk, c.null = false) →
    (∀ c ∈ pk1, c.null = false) ∧ pk1.length ≤ cols1.length ∧ pk.length ≤ pk1.length := by
  intro fuel
  induction fuel with
  | zero => intro pi cols pk cols1 pk1 h; simp [pkLoop] at h
  | succ fuel ih =>
    intro pi cols pk cols1 pk1 h hlen hle hnull
    rw [pkLoop] at h
    by_cases hc : pkCond pi cols = true
    · rw [if_pos hc] at h
      cases hg : cols[pi]? with
      | none => rw [hg] at h; simp at h
      | some c =>
        rw [hg] at h
        simp only [] at h
        have hlt : pi < cols.length := by
          rcases Nat.lt_or_ge pi cols.length with h1 | h1
          · exact h1
          · rw [List.getElem?_eq_none h1] at hg; simp at hg
        have := ih (pi + 1) _ _ cols1 pk1 h (by simp [hlen]) (by simp; omega)
          (by
            intro x hx
            simp at hx
            rcases hx with hx | hx
            · exact hnull x hx
            · subst hx; rfl)
        refine ⟨this.1, this.2.1, ?_⟩
        have h3 := this.2.2
        simp at h3
        omega
    · rw [if_neg hc] at h
      simp at h
      obtain ⟨rfl, rfl⟩ := h
      exact ⟨hnull, by omega, le_refl _⟩

/-- The run of `RdColumnsAndPk` on a generated list of at least 3 columns. -/
theorem RdColumnsAndPk_run (r : Draws) (size : DataType → Int) (least : Int)
    (h : 3 ≤ effColCnt r least) :
    ∃ gen k, rdColumns r size least = .ret gen ∧ 3 ≤ gen.length ∧
      (∀ i, i < gen.length → (gen[i]?).map (fun c => c.name) = some ("col_" ++ toString i)) ∧
      3 ≤ k ∧ k ≤ gen.length ∧
      (k = gen.length ∨ tpAt gen (k - 1) ≠ some DataType.TinyInt) ∧
      (∀ j, 3 ≤ j → j < k → tpAt gen (j - 1) = some DataType.TinyInt) ∧
      RdColumnsAndPk r size least = .ret (markNotNull k gen, (markNotNull k gen).take k) := by
  obtain ⟨gen, hgen, hlen, hname⟩ := rdColumns_ret r size least (by omega)
  have h3 : 3 ≤ gen.length := by omega
  obtain ⟨k, -, hk2, hk3, hk4, hk5, hk6⟩ :=
    pkLoop_markNotNull gen h3 (gen.length - 1) 1 (gen.length + 3) rfl (le_refl _) (by omega)
      (by omega)
  refine ⟨gen, k, hgen, h3, hname, hk2, hk3, hk4, fun j h1 h2 => hk5 j (by omega) h1 h2, ?_⟩
  unfold RdColumnsAndPk
  rw [hgen]
  simp only [Exec.bind]
  obtain ⟨c, hc⟩ : ∃ c, gen[0]? = some c := ⟨gen[0], List.getElem?_eq_getElem (by omega)⟩
  rw [hc]
  simp only []
  have hs := set_markNotNull 0 gen c hc
  have ht := take_markNotNull_succ 0 gen c hc
  simp only [ColumnType.notNull, markNotNull, List.take_zero, List.nil_append, zero_add] at hs ht
  rw [hs, ht]
  exact hk6

/-- C2: whenever `RdColumnsAndPk` returns `(columns, primary)`, for every
`minColumns` and every outcome of the random draws, `primary` is non-empty,
every column in `primary` has `null = false`, and
`1 ≤ len(primary) ≤ len(columns)`. -/
theorem C2_primary_key_invariant (r : Draws) (size : DataType → Int) (least : Int)
    (cols pk : List ColumnType) (h : RdColumnsAndPk r size least = .ret (cols, pk)) :
    pk ≠ [] ∧ (∀ c ∈ pk, c.null = false) ∧ 1 ≤ pk.length ∧ pk.length ≤ cols.length := by
  unfold RdColumnsAndPk at h
  cases hgen : rdColumns r size least with
  | panic m => rw [hgen] at h; simp [Exec.bind] at h
  | fuelOut => rw [hgen] at h; simp [Exec.bind] at h
  | ret gen =>
    rw [hgen] at h
    simp only [Exec.bind] at h
    cases h0 : gen[0]? with
    | none => rw [h0] at h; simp at h
    | some c =>
      rw [h0] at h
      simp only [] at h
      have hlen : 1 ≤ gen.length := by
        rcases Nat.lt_or_ge 0 gen.length with h1 | h1
        · exact h1
        · rw [List.getElem?_eq_none h1] at h0; simp at h0
      have := pkLoop_ret_inv _ 1 _ _ cols pk h rfl (by simp; omega)
        (by intro x hx; simp at hx; subst hx; rfl)
      have h1 : 1 ≤ pk.length := by simpa using this.2.2
      refine ⟨?_, this.1, h1, this.2.1⟩
      intro hnil
      rw [hnil] at h1
      simp at h1

/-- C2, at a concrete schema of 5 columns. -/
theorem C2_primary_key_invariant_witness :
    ∃ cols pk, RdColumnsAndPk drawsFive sizeZero 2 = .ret (cols, pk) ∧
      (pk ≠ [] ∧ (∀ c ∈ pk, c.null = false) ∧ 1 ≤ pk.length ∧ pk.length ≤ cols.length) :=
  ⟨_, _, rfl, C2_primary_key_invariant drawsFive sizeZero 2 _ _ rfl⟩

/-- C3: the code does not do what the claim says: when the column count is 2
(a drawn count equal to `columnLeast` with `minColumns ≤ 2`), the loop of
`RdColumnsAndPk` evaluates `columns[2]` on a slice of length 2 and the call
ends in a runtime failure instead of returning a schema. -/
theorem C3_two_columns_panic (r : Draws) (size : DataType → Int) (least : Int)
    (h : effColCnt r least = 2) :
    RdColumnsAndPk r size least = .panic "index out of range" := by
  simp [RdColumnsAndPk, rdColumns, h, Exec.bind, List.range, List.range.loop, pkLoop, pkCond]

/-- C3, at the drawn count `columnLeast = 2` and `minColumns = 2`. -/
theorem C3_two_columns_panic_witness :
    drawsTwo.colCnt = columnLeast ∧ effColCnt drawsTwo 2 = 2 ∧
      RdColumnsAndPk drawsTwo sizeZero 2 = .panic "index out of range" :=
  ⟨rfl, rfl, C3_two_columns_panic drawsTwo sizeZero 2 rfl⟩

theorem onceLeastCol_ge (txnSize : Int) : 10 ≤ onceLeastCol txnSize := by
  unfold onceLeastCol
  split <;> omega

theorem effColCnt_ge_least (r : Draws) (least : Int) : least ≤ effColCnt r least := by
  unfold effColCnt
  split <;> omega

/-- C10: for every generated schema with at least 3 columns (in particular for
every call made by `once`, whose `leastCol` is 10 or 100), `RdColumnsAndPk`
returns, `primary` is exactly the first `k` entries of the returned columns,
where `k` is the least `k ≥ 3` with `k = len(columns)` or
`columns[k-1].tp != TinyInt`; the returned columns at positions `< k` have
`null = false` and are otherwise as generated, and every column at a position
`≥ k` is as `rdColumns` generated it. -/
theorem C10_columns_and_primary_agree (r : Draws) (size : DataType → Int) (least : Int)
    (h : 3 ≤ effColCnt r least ∨ ∃ txnSize, least = onceLeastCol txnSize) :
    ∃ gen cols pk k, rdColumns r size least = .ret gen ∧
      RdColumnsAndPk r size least = .ret (cols, pk) ∧
      cols.length = gen.length ∧ 3 ≤ cols.length ∧
      3 ≤ k ∧ k ≤ cols.length ∧
      (k = cols.length ∨ tpAt cols (k - 1) ≠ some DataType.TinyInt) ∧
      (∀ j, 3 ≤ j → j < k → j ≠ cols.length ∧ tpAt cols (j - 1) = some DataType.TinyInt) ∧
      pk = cols.take k ∧
      (∀ i c, i < k → cols[i]? = some c → c.null = false) ∧
      (∀ i, i < k → cols[i]? = (gen[i]?).map ColumnType.notNull) ∧
      (∀ i, k ≤ i → cols[i]? = gen[i]?) := by
  have h3 : 3 ≤ effColCnt r least := by
    rcases h with h | ⟨t, rfl⟩
    · exact h
    · have h1 := onceLeastCol_ge t
      have h2 := effColCnt_ge_least r (onceLeastCol t)
      omega
  obtain ⟨gen, k, hgen, hlen, -, hk1, hk2, hk3, hk4, hrun⟩ := RdColumnsAndPk_run r size least h3
  refine ⟨gen, markNotNull k gen, (markNotNull k gen).take k, k, hgen, hrun,
    length_markNotNull k gen, ?_, hk1, ?_, ?_, ?_, rfl, ?_, ?_, ?_⟩
  · rw [length_markNotNull]; exact hlen
  · rw [length_markNotNull]; exact hk2
  · rw [length_markNotNull, tpAt_markNotNull]; exact hk3
  · intro j hj1 hj2
    rw [length_markNotNull, tpAt_markNotNull]
    exact ⟨by omega, hk4 j hj1 hj2⟩
  · intro i c hi hc
    rw [getElem?_markNotNull] at hc
    cases hg : gen[i]? with
    | none => rw [hg] at hc; simp at hc
    | some d =>
      rw [hg] at hc
      simp [hi] at hc
      rw [← hc]
      rfl
  · intro i hi
    rw [getElem?_markNotNull]
    simp [hi]
  · intro i hi
    rw [getElem?_markNotNull]
    have : ¬ i < k := by omega
    simp [this]

/-- C10, at a concrete schema of 5 columns. -/
theorem C10_columns_and_primary_agree_witness :
    ∃ gen cols pk k, rdColumns drawsFive sizeZero 2 = .ret gen ∧
      RdColumnsAndPk drawsFive sizeZero 2 = .ret (cols, pk) ∧
      cols.length = gen.length ∧ 3 ≤ cols.length ∧
      3 ≤ k ∧ k ≤ cols.length ∧
      (k = cols.length ∨ tpAt cols (k - 1) ≠ some DataType.TinyInt) ∧
      (∀ j, 3 ≤ j → j < k → j ≠ cols.length ∧ tpAt cols (j - 1) = some DataType.TinyInt) ∧
      pk = cols.take k ∧
      (∀ i c, i < k → cols[i]? = some c → c.null = false) ∧
      (∀ i, i < k → cols[i]? = (gen[i]?).map ColumnType.notNull) ∧
      (∀ i, k ≤ i → cols[i]? = gen[i]?) :=
  C10_columns_and_primary_agree drawsFive sizeZero 2 (Or.inl (by decide))

/-- C4, as stated, fails: a generated schema whose second column `col_1` is not
`TinyInt` gets a primary key of 3 columns, not 2. -/
theorem C4_counterexample :
    ∃ cols pk, RdColumnsAndPk drawsFour sizeZero 2 = .ret (cols, pk) ∧
      tpAt cols 1 = some (DataType.other 1) ∧
      pk.map (fun c => c.name) = ["col_0", "col_1", "col_2"] ∧ pk.length ≠ 2 :=
  ⟨_, _, rfl, rfl, by decide, by decide⟩

/-- C4, amended: on a generated schema of at least 3 columns `RdColumnsAndPk`
returns a key that is a run of consecutive columns from the first one, where
column `j ≥ 1` is in the key exactly when every step `m` with `3 ≤ m ≤ j` found
the preceding column `m - 1` to be `TinyInt` (the first 3 columns are always
taken); so a schema whose third column `col_2` is not `TinyInt` has the key
`col_0, col_1, col_2` of exactly 3 columns. -/
theorem C4_primary_key_policy (r : Draws) (size : DataType → Int) (least : Int)
    (h : 3 ≤ effColCnt r least) :
    ∃ cols pk, RdColumnsAndPk r size least = .ret (cols, pk) ∧
      pk = cols.take pk.length ∧ 3 ≤ pk.length ∧ pk.length ≤ cols.length ∧
      (∀ j, 1 ≤ j → j < cols.length →
        (j < pk.length ↔ ∀ m, 3 ≤ m → m ≤ j → tpAt cols (m - 1) = some DataType.TinyInt)) ∧
      (tpAt cols 2 ≠ some DataType.TinyInt →
        pk.length = 3 ∧ pk.map (fun c => c.name) = ["col_0", "col_1", "col_2"]) := by
  obtain ⟨gen, k, hgen, hlen, hname, hk1, hk2, hk3, hk4, hrun⟩ :=
    RdColumnsAndPk_run r size least h
  have hlk : ((markNotNull k gen).take k).length = k := by
    rw [List.length_take, length_markNotNull]; omega
  refine ⟨markNotNull k gen, (markNotNull k gen).take k, hrun, ?_, ?_, ?_, ?_, ?_⟩
  · rw [hlk]
  · rw [hlk]; exact hk1
  · rw [hlk, length_markNotNull]; exact hk2
  · intro j hj1 hj2
    rw [hlk, length_markNotNull] at *
    constructor
    · intro hjk m hm1 hm2
      rw [tpAt_markNotNull]
      exact hk4 m hm1 (by omega)
    · intro hall
      by_contra hjk
      have := hall k hk1 (by omega)
      rw [tpAt_markNotNull] at this
      rcases hk3 with hk3 | hk3
      · omega
      · exact hk3 this
  · intro h2
    rw [tpAt_markNotNull] at h2
    have hk : k = 3 := by
      by_contra hne
      exact h2 (hk4 3 (le_refl _) (by omega))
    subst hk
    refine ⟨hlk, ?_⟩
    have n0 := hname 0 (by omega)
    have n1 := hname 1 (by omega)
    have n2 := hname 2 (by omega)
    match gen, hlen, n0, n1, n2 with
    | a :: b :: c :: rest, _, n0, n1, n2 =>
      simp at n0 n1 n2
      simp [markNotNull, ColumnType.notNull, n0, n1, n2]
      exact ⟨by decide, by decide, by decide⟩

/-- C4 amended, at a concrete schema of 4 columns. -/
theorem C4_primary_key_policy_witness :
    ∃ cols pk, RdColumnsAndPk drawsFour sizeZero 2 = .ret (cols, pk) ∧
      pk = cols.take pk.length ∧ 3 ≤ pk.length ∧ pk.length ≤ cols.length ∧
      (∀ j, 1 ≤ j → j < cols.length →
        (j < pk.length ↔ ∀ m, 3 ≤ m → m ≤ j → tpAt cols (m - 1) = some DataType.TinyInt)) ∧
      (tpAt cols 2 ≠ some DataType.TinyInt →
        pk.length = 3 ∧ pk.map (fun c => c.name) = ["col_0", "col_1", "col_2"]) :=
  C4_primary_key_policy drawsFour sizeZero 2 (by decide)

/-! ## Driver loop -/

theorem roundStep_round (ff : Bool) (tr : Int) (st : LoopState) (o : RoundOutcome) :
    (roundStep ff tr st o).1.round = st.round + 1 := by
  cases o <;> cases ff <;> simp [roundStep]

theorem roundStep_conclusion (ff : Bool) (tr : Int) (st : LoopState) (o : RoundOutcome) :
    (roundStep ff tr st o).1.conclusion ≠ Conclusion.Success ↔
      (st.conclusion ≠ Conclusion.Success ∨ o ≠ RoundOutcome.success) := by
  cases o <;> cases ff <;> simp [roundStep]

/-- Invariant of the loop of `main`: when it stops it has executed
`round - round₀` rounds, all of them listed, and the conclusion is a success
exactly when it was one before and every executed round succeeded. -/
theorem mainLoop_some (ff : Bool) (tr : Int) :
    ∀ (outs : List RoundOutcome) (st res : LoopState), mainLoop ff tr st outs = some res →
      st.round < res.round ∧ res.round - st.round ≤ outs.length ∧
      (res.conclusion ≠ Conclusion.Success ↔
        (st.conclusion ≠ Conclusion.Success ∨
          ∃ o ∈ outs.take (res.round - st.round), o ≠ RoundOutcome.success)) := by
  intro outs
  induction outs with
  | nil => intro st res h; simp [mainLoop] at h
  | cons o rest ih =>
    intro st res h
    rw [mainLoop] at h
    have hr := roundStep_round ff tr st o
    have hcn := roundStep_conclusion ff tr st o
    rcases hstep : roundStep ff tr st o with ⟨st1, b⟩
    rw [hstep] at h hr hcn
    simp only [] at hr hcn
    cases b with
    | true =>
      simp only [Option.some.injEq] at h
      subst h
      refine ⟨by omega, by simp; omega, ?_⟩
      rw [hcn, hr]
      simp
    | false =>
      simp only [] at h
      obtain ⟨h1, h2, h3⟩ := ih st1 res h
      refine ⟨by omega, by simp; omega, ?_⟩
      have hk : res.round - st.round = (res.round - st1.round) + 1 := by omega
      rw [h3, hcn, hk, List.take_succ_cons]
      simp only [List.mem_cons, exists_eq_or_imp]
      tauto

theorem roundStep_stop (ff : Bool) (tr : Int) (st : LoopState) (o : RoundOutcome)
    (ho : o ≠ RoundOutcome.timedOut) :
    (roundStep ff tr st o).2 = true ↔
      ((o = RoundOutcome.failure ∧ ff = true) ∨ (tr ≠ 0 ∧ tr ≤ ((st.round + 1 : Nat) : Int))) := by
  cases o <;> cases ff <;> simp [roundStep] at ho ⊢

theorem roundStep_timedOut (ff : Bool) (tr : Int) (st : LoopState) :
    (roundStep ff tr st RoundOutcome.timedOut).2 = true := by
  simp [roundStep]

theorem mainLoop_le_bound (ff : Bool) (n : Nat) :
    ∀ (outs : List RoundOutcome) (st res : LoopState), st.round < n →
      mainLoop ff (n : Int) st outs = some res → res.round ≤ n := by
  intro outs
  induction outs with
  | nil => intro st res _ h; simp [mainLoop] at h
  | cons o rest ih =>
    intro st res hlt h
    rw [mainLoop] at h
    have hr := roundStep_round ff n st o
    rcases hstep : roundStep ff n st o with ⟨st1, b⟩
    rw [hstep] at h hr
    simp only [] at hr
    cases b with
    | true =>
      simp only [Option.some.injEq] at h
      subst h
      omega
    | false =>
      simp only [] at h
      have hne : o ≠ RoundOutcome.timedOut := by
        intro ho
        have := roundStep_timedOut ff n st
        rw [← ho, hstep] at this
        simp at this
      have hs := roundStep_stop ff n st o hne
      rw [hstep] at hs
      simp only [Bool.false_eq_true, false_iff, not_or, not_and] at hs
      have h2 : ¬ ((n : Int) ≤ ((st.round + 1 : Nat) : Int)) := by
        intro hle
        exact hs.2 (by omega) hle
      exact ih st1 res (by omega) h

theorem mainLoop_terminates (ff : Bool) (n : Nat) :
    ∀ (outs : List RoundOutcome) (st : LoopState), st.round < n →
      n - st.round ≤ outs.length → ∃ res, mainLoop ff (n : Int) st outs = some res := by
  intro outs
  induction outs with
  | nil => intro st hlt hlen; simp at hlen; omega
  | cons o rest ih =>
    intro st hlt hlen
    rw [mainLoop]
    have hr := roundStep_round ff n st o
    rcases hstep : roundStep ff n st o with ⟨st1, b⟩
    rw [hstep] at hr
    simp only [] at hr
    cases b with
    | true => exact ⟨st1, rfl⟩
    | false =>
      simp only []
      have hne : o ≠ RoundOutcome.timedOut := by
        intro ho
        have := roundStep_timedOut ff n st
        rw [← ho, hstep] at this
        simp at this
      have hs := roundStep_stop ff n st o hne
      rw [hstep] at hs
      simp only [Bool.false_eq_true, false_iff, not_or, not_and] at hs
      have h2 : ¬ ((n : Int) ≤ ((st.round + 1 : Nat) : Int)) := by
        intro hle
        exact hs.2 (by omega) hle
      simp only [List.length_cons] at hlen
      exact ih st1 (by omega) (by omega)

theorem mainLoop_exact (n : Nat) :
    ∀ (outs : List RoundOutcome) (st : LoopState), st.round < n →
      n - st.round ≤ outs.length →
      (∀ o ∈ outs.take (n - st.round), o ≠ RoundOutcome.timedOut) →
      ∃ res, mainLoop false (n : Int) st outs = some res ∧ res.round = n := by
  intro outs
  induction outs with
  | nil => intro st hlt hlen; simp at hlen; omega
  | cons o rest ih =>
    intro st hlt hlen hno
    rw [mainLoop]
    have hr := roundStep_round false n st o
    have hk : n - st.round = (n - (st.round + 1)) + 1 := by omega
    rw [hk, List.take_succ_cons] at hno
    have hne : o ≠ RoundOutcome.timedOut := hno o (List.mem_cons_self _ _)
    have hs := roundStep_stop false n st o hne
    rcases hstep : roundStep false n st o with ⟨st1, b⟩
    rw [hstep] at hr hs
    simp only [] at hr hs
    cases b with
    | true =>
      refine ⟨st1, rfl, ?_⟩
      simp only [Bool.false_eq_true, and_false, false_or, true_iff] at hs
      omega
    | false =>
      simp only []
      simp only [Bool.false_eq_true, and_false, false_or, false_iff, not_and] at hs
      have h2 : ¬ ((n : Int) ≤ ((st.round + 1 : Nat) : Int)) := by
        intro hle
        exact hs (by omega) hle
      simp only [List.length_cons] at hlen
      refine ih st1 (by omega) (by omega) ?_
      intro x hx
      rw [hr] at hx
      exact hno x (List.mem_cons_of_mem _ hx)

theorem mainLoop_unbounded (ff : Bool) :
    ∀ (outs : List RoundOutcome) (st : LoopState),
      (∀ o ∈ outs, o = RoundOutcome.success) → mainLoop ff 0 st outs = none := by
  intro outs
  induction outs with
  | nil => intro st _; rfl
  | cons o rest ih =>
    intro st h
    have ho : o = RoundOutcome.success := h o (List.mem_cons_self _ _)
    subst ho
    rw [mainLoop]
    simp only [roundStep, ne_eq, not_true_eq_false, decide_False, Bool.false_and]
    exact ih _ (fun x hx => h x (List.mem_cons_of_mem _ hx))

/-- C5, as stated, fails: with `failfast` off and `totalRound = 2`, a failed
first round followed by a successful second round ends the loop at the round
bound with a successful final round, and the exit code is 1. -/
theorem C5_counterexample :
    mainRun false 2 [RoundOutcome.failure, RoundOutcome.success] =
      some { rounds := 2, conclusion := Conclusion.Failure, exitCode := 1 } := by
  decide

/-- C5, amended: when the loop of `main` terminates, the exit code is non-zero
if and only if the outcome of at least one executed round was a failure or a
timeout, in particular whenever the final round's was; it is 0 whenever every
executed round was successful. -/
theorem C5_exit_code (ff : Bool) (tr : Int) (outs : List RoundOutcome) (res : MainExit)
    (h : mainRun ff tr outs = some res) :
    1 ≤ res.rounds ∧ res.rounds ≤ outs.length ∧
      (res.exitCode ≠ 0 ↔ ∃ o ∈ outs.take res.rounds, o ≠ RoundOutcome.success) ∧
      (∀ o, outs[res.rounds - 1]? = some o → o ≠ RoundOutcome.success → res.exitCode ≠ 0) ∧
      ((∀ o ∈ outs.take res.rounds, o = RoundOutcome.success) → res.exitCode = 0) := by
  unfold mainRun at h
  cases hl : mainLoop ff tr { round := 0, conclusion := Conclusion.Success } outs with
  | none => rw [hl] at h; simp at h
  | some st =>
    rw [hl] at h
    simp only [Option.map_some', Option.some.injEq] at h
    subst h
    obtain ⟨h1, h2, h3⟩ := mainLoop_some ff tr outs _ st hl
    simp only [ne_eq, not_true_eq_false, false_or, Nat.sub_zero] at h1 h2 h3
    have hcode : (exitOf st).exitCode ≠ 0 ↔
        ∃ o ∈ outs.take (exitOf st).rounds, o ≠ RoundOutcome.success := by
      have hr : (exitOf st).rounds = st.round := rfl
      rw [hr]
      refine Iff.trans ?_ h3
      by_cases hc : st.conclusion = Conclusion.Success <;> simp [exitOf, hc]
    refine ⟨h1, h2, hcode, ?_, ?_⟩
    · intro o ho hne
      rw [hcode]
      refine ⟨o, ?_, hne⟩
      have hr : (exitOf st).rounds = st.round := rfl
      rw [hr] at ho ⊢
      rw [List.mem_iff_getElem?]
      refine ⟨st.round - 1, ?_⟩
      rw [List.getElem?_take_of_lt (by omega)]
      exact ho
    · intro hall
      by_contra hne
      obtain ⟨o, ho, hno⟩ := hcode.mp hne
      exact hno (hall o ho)

/-- C5 amended, at two rounds with `failfast` off and `totalRound = 2`. -/
theorem C5_exit_code_witness :
    mainRun false 2 [RoundOutcome.failure, RoundOutcome.success] =
        some { rounds := 2, conclusion := Conclusion.Failure, exitCode := 1 } ∧
      ((1 : Nat) ≠ 0 ↔ ∃ o ∈ [RoundOutcome.failure, RoundOutcome.success].take 2,
        o ≠ RoundOutcome.success) :=
  ⟨by decide,
    (C5_exit_code false 2 [RoundOutcome.failure, RoundOutcome.success]
      { rounds := 2, conclusion := Conclusion.Failure, exitCode := 1 } (by decide)).2.2.1⟩

/-- C6: a round that completes before the deadline is the last one if and only
if (it returned an error and `failfast` is set) or (`totalRound != 0` and
`totalRound <= round`); hence with `totalRound = n ≥ 1` the loop stops within
the first `n` rounds, after exactly `n` when `failfast` is off and none of them
times out, and with `totalRound = 0` it never stops after a successful round. -/
theorem C6_loop_stop (ff : Bool) (tr : Int) :
    (∀ (st : LoopState) (o : RoundOutcome), o ≠ RoundOutcome.timedOut →
      ((roundStep ff tr st o).2 = true ↔
        ((o = RoundOutcome.failure ∧ ff = true) ∨
          (tr ≠ 0 ∧ tr ≤ ((st.round + 1 : Nat) : Int))))) ∧
    (∀ (n : Nat) (outs : List RoundOutcome), 1 ≤ n → tr = (n : Int) →
      (∀ res, mainRun ff tr outs = some res → res.rounds ≤ n) ∧
      (n ≤ outs.length → ∃ res, mainRun ff tr outs = some res) ∧
      (ff = false → n ≤ outs.length → (∀ o ∈ outs.take n, o ≠ RoundOutcome.timedOut) →
        ∃ res, mainRun ff tr outs = some res ∧ res.rounds = n)) ∧
    (tr = 0 → (∀ st, (roundStep ff tr st RoundOutcome.success).2 = false) ∧
      ∀ outs, (∀ o ∈ outs, o = RoundOutcome.success) → mainRun ff tr outs = none) := by
  refine ⟨fun st o ho => roundStep_stop ff tr st o ho, ?_, ?_⟩
  · intro n outs hn htr
    subst htr
    refine ⟨?_, ?_, ?_⟩
    · intro res h
      unfold mainRun at h
      cases hl : mainLoop ff n { round := 0, conclusion := Conclusion.Success } outs with
      | none => rw [hl] at h; simp at h
      | some st =>
        rw [hl] at h
        simp only [Option.map_some', Option.some.injEq] at h
        subst h
        exact mainLoop_le_bound ff n outs _ st (by simpa using hn) hl
    · intro hlen
      obtain ⟨st, hst⟩ := mainLoop_terminates ff n outs
        { round := 0, conclusion := Conclusion.Success } (by simpa using hn) (by simpa using hlen)
      exact ⟨exitOf st, by simp [mainRun, hst]⟩
    · intro hff hlen hno
      subst hff
      obtain ⟨st, hst, hround⟩ := mainLoop_exact n outs
        { round := 0, conclusion := Conclusion.Success } (by simpa using hn) (by simpa using hlen)
        (by simpa using hno)
      exact ⟨exitOf st, by simp [mainRun, hst], hround⟩
  · intro htr
    subst htr
    refine ⟨?_, ?_⟩
    · intro st
      simp [roundStep]
    · intro outs hall
      simp [mainRun, mainLoop_unbounded ff outs _ hall]

/-- C6, at `totalRound = 3` with `failfast` off: a failed round, then two
successful ones, and the loop stops after exactly 3 rounds. -/
theorem C6_loop_stop_witness :
    ∃ res, mainRun false 3
        [RoundOutcome.failure, RoundOutcome.success, RoundOutcome.success,
          RoundOutcome.success] = some res ∧ res.rounds = 3 :=
  ((C6_loop_stop false 3).2.1 3
      [RoundOutcome.failure, RoundOutcome.success, RoundOutcome.success, RoundOutcome.success]
      (by decide) rfl).2.2 rfl (by decide) (by decide)

/-! ## Cloning and rendering -/

theorem set_take_replicate (src : List ColumnType) (zero c : ColumnType) (i k : Nat)
    (hc : src[i]? = some c) :
    (src.take i ++ List.replicate (k + 1) zero).set i c =
      src.take (i + 1) ++ List.replicate k zero := by
  have hi : i < src.length := by
    rcases Nat.lt_or_ge i src.length with h1 | h1
    · exact h1
    · rw [List.getElem?_eq_none h1] at hc; simp at hc
  have hlen : (src.take i).length = i := by rw [List.length_take]; omega
  rw [List.take_succ, hc, List.set_append, hlen, if_neg (by omega), Nat.sub_self,
    List.replicate_succ, List.set_cons_zero]
  simp

/-- The loop of `CloneColumns` fills the fresh array with the entries of the
source and touches no other array. -/
theorem cloneLoop_spec (source res : Slice) (src : List ColumnType) (zero : ColumnType)
    (hne : source.arr ≠ res.arr) (hoff : res.off = 0) (hlen : res.len = source.len)
    (hsrc : src.length = source.len) :
    ∀ (k i : Nat) (h : Heap), i + k = source.len → h.load source = src →
      h.arrays res.arr = src.take i ++ List.replicate k zero →
      ∃ h1, cloneLoop source res k i h = .ret h1 ∧ h1.arrays res.arr = src ∧
        (∀ a, a ≠ res.arr → h1.arrays a = h.arrays a) ∧ h1.next = h.next := by
  intro k
  induction k with
  | zero =>
    intro i h hik hload harr
    refine ⟨h, rfl, ?_, fun _ _ => rfl, rfl⟩
    rw [harr, List.take_of_length_le (by omega)]
    simp
  | succ k ih =>
    intro i h hik hload harr
    have hi : i < src.length := by omega
    obtain ⟨c, hc⟩ : ∃ c, src[i]? = some c := ⟨src[i], List.getElem?_eq_getElem hi⟩
    have hget : (h.load source)[i]? = some c := by rw [hload]; exact hc
    have hresl : (h.load res).length = source.len := by
      simp only [Heap.load, harr, hoff, hlen, List.drop_zero, List.length_take,
        List.length_append, List.length_replicate]
      omega
    obtain ⟨h1, hrun, hres, hoth, hnext⟩ := ih (i + 1)
      (Heap.mk (Function.update h.arrays res.arr ((h.arrays res.arr).set (res.off + i) c)) h.next)
      (by omega)
      (by
        simp only [Heap.load]
        rw [Function.update_noteq hne]
        exact hload)
      (by
        simp only [Function.update_same]
        rw [harr, hoff, Nat.zero_add]
        exact set_take_replicate src zero c i k hc)
    refine ⟨h1, ?_, hres, ?_, hnext⟩
    · rw [cloneLoop]
      simp only [Heap.index, hget, Exec.bind, Heap.assign, hresl]
      rw [if_pos (by omega)]
      exact hrun
    · intro a ha
      rw [hoth a ha]
      simp only [Function.update_noteq ha]

/-- The run of `CloneColumns` on a slice of the heap. -/
theorem CloneColumns_run (zero : ColumnType) (h : Heap) (source : Slice)
    (hv : h.valid source) :
    ∃ h1 res, CloneColumns zero h source = .ret (h1, res) ∧ res.arr = h.next ∧
      res.off = 0 ∧ res.len = source.len ∧ h1.arrays res.arr = h.load source ∧
      (∀ a, a ≠ res.arr → h1.arrays a = h.arrays a) ∧ h1.next = h.next + 1 := by
  have hne : source.arr ≠ h.next := Nat.ne_of_lt hv.1
  have hsrc : (h.load source).length = source.len := by
    simp only [Heap.load, List.length_take, List.length_drop]
    have := hv.2
    omega
  obtain ⟨h1, hrun, hres, hoth, hnext⟩ :=
    cloneLoop_spec source { arr := h.next, off := 0, len := source.len } (h.load source) zero
      hne rfl rfl hsrc source.len 0 (h.make zero source.len).1 (by omega)
      (by
        simp only [Heap.load, Heap.make]
        rw [Function.update_noteq hne])
      (by simp [Heap.make])
  refine ⟨h1, { arr := h.next, off := 0, len := source.len }, ?_, rfl, rfl, rfl, hres, ?_, hnext⟩
  · simp only [CloneColumns, Heap.make] at hrun ⊢
    rw [hrun]
    rfl
  · intro a ha
    rw [hoth a ha]
    simp only [Heap.make]
    rw [Function.update_noteq ha]

theorem genIndexes_congr (cl : Bool) (p q : List ColumnType)
    (h : p.map (fun c => c.name) = q.map (fun c => c.name)) :
    genIndexes cl p = genIndexes cl q := by
  have hl : p.length = q.length := by
    have := congrArg List.length h
    simpa using this
  unfold genIndexes
  rw [hl, h]

/-- The run of `s[i].null = b` inside a slice of the heap: one entry of the
array of `s` gets the flag, nothing else changes. -/
theorem setNull_run (h : Heap) (s : Slice) (i : Nat) (b : Bool) (hv : h.valid s)
    (hi : i < s.len) :
    ∃ h1 c, h.setNull s i b = .ret h1 ∧ (h.arrays s.arr)[s.off + i]? = some c ∧
      h1.arrays s.arr = (h.arrays s.arr).set (s.off + i) { c with null := b } ∧
      (∀ a, a ≠ s.arr → h1.arrays a = h.arrays a) ∧ h1.next = h.next := by
  have hl : (h.load s).length = s.len := by
    simp only [Heap.load, List.length_take, List.length_drop]
    have := hv.2
    omega
  have hlt : s.off + i < (h.arrays s.arr).length := by
    have := hv.2
    omega
  have hget : (h.load s)[i]? = some (h.arrays s.arr)[s.off + i] := by
    simp only [Heap.load]
    rw [List.getElem?_take_of_lt hi, List.getElem?_drop]
    exact List.getElem?_eq_getElem hlt
  refine ⟨Heap.mk (Function.update h.arrays s.arr ((h.arrays s.arr).set (s.off + i)
      { (h.arrays s.arr)[s.off + i] with null := b })) h.next,
    (h.arrays s.arr)[s.off + i], ?_, List.getElem?_eq_getElem hlt, ?_, ?_, ?_⟩
  · simp only [Heap.setNull, Heap.index, hget, Exec.bind, Heap.assign, hl]
    rw [if_pos hi]
  · simp
  · intro a ha
    simp only [Function.update_noteq ha]
  · rfl

theorem map_name_set (l : List ColumnType) (j : Nat) (c : ColumnType) (b : Bool)
    (hc : l[j]? = some c) :
    (l.set j { c with null := b }).map (fun c => c.name) = l.map (fun c => c.name) := by
  apply List.ext_getElem?
  intro m
  simp only [List.getElem?_map, List.getElem?_set]
  by_cases hm : j = m
  · subst hm
    rw [if_pos rfl, hc]
    have hj : j < l.length := by
      rcases Nat.lt_or_ge j l.length with h1 | h1
      · exact h1
      · rw [List.getElem?_eq_none h1] at hc; simp at hc
    simp [hj]
  · rw [if_neg hm]

/-- C8: `CloneColumns` returns a fresh slice with the same entries, field for
field, so `GenCreateTableStmt` gives the same text on the clone and on the
original; and an assignment `cols[i].null = b` made after the cloning leaves
the clone and its rendering unchanged. -/
theorem C8_clone_round_trip (tpStr : DataType → String) (clustered : Bool)
    (zero : ColumnType) (h : Heap) (cols primary : Slice) (tableName : String)
    (hv : h.valid cols) (hp : h.valid primary) :
    ∃ h1 res, CloneColumns zero h cols = .ret (h1, res) ∧
      (h1.load res).length = (h.load cols).length ∧
      h1.load res = h.load cols ∧ h1.load cols = h.load cols ∧
      GenCreateTableStmtAt tpStr clustered h1 res primary tableName =
        GenCreateTableStmtAt tpStr clustered h cols primary tableName ∧
      ∀ (i : Nat) (b : Bool), i < cols.len →
        ∃ h2, h1.setNull cols i b = .ret h2 ∧
          (h2.load cols)[i]?.map (fun c => c.null) = some b ∧
          h2.load res = h1.load res ∧
          GenCreateTableStmtAt tpStr clustered h2 res primary tableName =
            GenCreateTableStmtAt tpStr clustered h1 res primary tableName := by
  obtain ⟨h1, res, hrun, harr, hoff, hlen, hres, hoth, hnext⟩ := CloneColumns_run zero h cols hv
  have hsrc : (h.load cols).length = cols.len := by
    simp only [Heap.load, List.length_take, List.length_drop]
    have := hv.2
    omega
  have hne : cols.arr ≠ res.arr := by rw [harr]; exact Nat.ne_of_lt hv.1
  have hnp : primary.arr ≠ res.arr := by rw [harr]; exact Nat.ne_of_lt hp.1
  have hlres : h1.load res = h.load cols := by
    simp only [Heap.load, hres, hoff, hlen, List.drop_zero]
    rw [List.take_of_length_le]
    simp only [Heap.load] at hsrc
    omega
  have hlcols : h1.load cols = h.load cols := by
    simp only [Heap.load, hoth _ hne]
  have hlprim : h1.load primary = h.load primary := by
    simp only [Heap.load, hoth _ hnp]
  have hv1 : h1.valid cols := by
    refine ⟨?_, ?_⟩
    · rw [hnext]; exact Nat.lt_succ_of_lt hv.1
    · rw [hoth _ hne]; exact hv.2
  refine ⟨h1, res, hrun, by rw [hlres], hlres, hlcols, ?_, ?_⟩
  · simp only [GenCreateTableStmtAt, hlres, hlprim]
  · intro i b hi
    obtain ⟨h2, c, hset, hc, hnew, hoth2, -⟩ := setNull_run h1 cols i b hv1 hi
    have hne2 : res.arr ≠ cols.arr := fun e => hne e.symm
    have hlres2 : h2.load res = h1.load res := by
      simp only [Heap.load, hoth2 _ hne2]
    have hnames : (h2.load primary).map (fun c => c.name) =
        (h1.load primary).map (fun c => c.name) := by
      by_cases hpa : primary.arr = cols.arr
      · simp only [Heap.load, hpa, hnew, List.map_take, List.map_drop]
        rw [map_name_set _ _ c b hc]
      · simp only [Heap.load, hoth2 _ hpa]
    refine ⟨h2, hset, ?_, hlres2, ?_⟩
    · simp only [Heap.load, hnew]
      rw [List.getElem?_take_of_lt hi, List.getElem?_drop, List.getElem?_set_self]
      · rfl
      · have := hv1.2
        omega
    · simp only [GenCreateTableStmtAt, GenCreateTableStmt, hlres2]
      rw [genIndexes_congr clustered _ _ hnames]

/-- C8, on a heap with one array of two columns, the key being its first
column. -/
theorem C8_clone_round_trip_witness :
    ∃ h1 res, CloneColumns (NewColumnType 0 "" DataType.TinyInt 0 false) heapTwo
        { arr := 0, off := 0, len := 2 } = .ret (h1, res) ∧
      (h1.load res).length = (heapTwo.load { arr := 0, off := 0, len := 2 }).length ∧
      h1.load res = heapTwo.load { arr := 0, off := 0, len := 2 } ∧
      h1.load { arr := 0, off := 0, len := 2 } = heapTwo.load { arr := 0, off := 0, len := 2 } ∧
      GenCreateTableStmtAt (fun _ => "INT") true h1 res { arr := 0, off := 0, len := 1 } "t" =
        GenCreateTableStmtAt (fun _ => "INT") true heapTwo { arr := 0, off := 0, len := 2 }
          { arr := 0, off := 0, len := 1 } "t" ∧
      ∀ (i : Nat) (b : Bool), i < 2 →
        ∃ h2, h1.setNull { arr := 0, off := 0, len := 2 } i b = .ret h2 ∧
          (h2.load { arr := 0, off := 0, len := 2 })[i]?.map (fun c => c.null) = some b ∧
          h2.load res = h1.load res ∧
          GenCreateTableStmtAt (fun _ => "INT") true h2 res { arr := 0, off := 0, len := 1 } "t" =
            GenCreateTableStmtAt (fun _ => "INT") true h1 res { arr := 0, off := 0, len := 1 } "t" :=
  C8_clone_round_trip (fun _ => "INT") true (NewColumnType 0 "" DataType.TinyInt 0 false) heapTwo
    { arr := 0, off := 0, len := 2 } { arr := 0, off := 0, len := 1 } "t"
    ⟨by decide, by decide⟩ ⟨by decide, by decide⟩

/-! ## Mode initialisation -/

theorem modeLoop_supported :
    ∀ (tokens : List String) (i : Nat) (sel set : List String) (fns : List DdlRandom),
      (∀ m ∈ tokens, TrimSpace m = "" ∨ modeMap (TrimSpace m) ≠ none) →
      (modeLoop tokens i sel set fns).1 = none := by
  intro tokens
  induction tokens with
  | nil => intro i sel set fns _; rfl
  | cons m rest ih =>
    intro i sel set fns h
    have hrest : ∀ x ∈ rest, TrimSpace x = "" ∨ modeMap (TrimSpace x) ≠ none :=
      fun x hx => h x (List.mem_cons_of_mem _ hx)
    rw [modeLoop]
    by_cases he : TrimSpace m = ""
    · simp only [he, if_true]
      exact ih _ _ _ _ hrest
    · cases hm : modeMap (TrimSpace m) with
      | none =>
        rcases h m (List.mem_cons_self _ _) with h1 | h1
        · exact absurd h1 he
        · exact absurd hm h1
      | some fn =>
        simp only [he, if_false, hm]
        exact ih _ _ _ _ hrest

theorem FindStringSubmatch_empty : FindStringSubmatch "" = [] := by decide

/-- C7: the code does not do what the claim says: with `dsn2 = ""`, every mode
token supported, a supported executor name and a `dsn1` that matches
`dbnamePattern`, `initMode` does not return `nil`: the statement
`dsn2NoDB = dbnamePattern.FindStringSubmatch(dsn2)[1]` indexes the `nil`
result of a failed match and the call ends in a runtime failure. -/
theorem C7_initMode_panics_without_dsn2 (ramInBytes : String → Except String Int)
    (f : Flags) (g : Globals) (h2 : f.dsn2 = "")
    (hmodes : ∀ m ∈ splitComma f.mode.data [], TrimSpace m = "" ∨ modeMap (TrimSpace m) ≠ none)
    (hsize : f.txnSizeStr = "" ∨ ∃ n, ramInBytes f.txnSizeStr = .ok n)
    (hexec : dmlExecutors f.dmlExecutorName ≠ none)
    (hdsn1 : FindStringSubmatch f.dsn1 ≠ []) :
    initMode ramInBytes f g = .panic "index out of range" := by
  have hloop := modeLoop_supported (splitComma f.mode.data []) 0 (splitComma f.mode.data []) []
    g.modeFns hmodes
  obtain ⟨e, hexe⟩ : ∃ e, dmlExecutors f.dmlExecutorName = some e := by
    cases hx : dmlExecutors f.dmlExecutorName with
    | none => exact absurd hx hexec
    | some e => exact ⟨e, rfl⟩
  obtain ⟨s1, hs1⟩ : ∃ s1, strAt (FindStringSubmatch f.dsn1) 1 = .ret s1 := by
    unfold FindStringSubmatch at hdsn1 ⊢
    split at hdsn1
    · exact absurd rfl hdsn1
    · rename_i hnl
      rw [if_neg hnl]
      cases hsp : splitLastSlash f.dsn1.data with
      | none => rw [hsp] at hdsn1; exact absurd rfl hdsn1
      | some pr => exact ⟨_, rfl⟩
  have h2e : strAt (FindStringSubmatch f.dsn2) 1 = .panic "index out of range" := by
    rw [h2, FindStringSubmatch_empty]
    rfl
  rcases hl : modeLoop (splitComma f.mode.data []) 0 (splitComma f.mode.data []) [] g.modeFns
    with ⟨err, sel, fns⟩
  rw [hl] at hloop
  simp only [] at hloop
  subst hloop
  unfold initMode
  simp only [hl]
  rcases hsize with hsz | ⟨n, hn⟩
  · simp only [hsz, ne_eq, not_true_eq_false, if_false, hexe, hs1, Exec.bind, h2e]
  · by_cases hsz : f.txnSizeStr = ""
    · simp only [hsz, ne_eq, not_true_eq_false, if_false, hexe, hs1, Exec.bind, h2e]
    · simp only [hsz, ne_eq, not_false_eq_true, if_true, hn, hexe, hs1, Exec.bind, h2e]

/-- C7, at the default flags of `init` (`dsn2 = ""`, no mode selected). -/
theorem C7_initMode_panics_without_dsn2_witness :
    defaultFlags.dsn2 = "" ∧
      initMode (fun _ => .ok 0) defaultFlags Globals.initial = .panic "index out of range" :=
  ⟨rfl, C7_initMode_panics_without_dsn2 (fun _ => .ok 0) defaultFlags Globals.initial rfl
    (by decide) (Or.inl rfl) (by decide) (by decide)⟩

/-! ## Barrier set-up in `once` -/

/-- C1: `once` allocates the barriers before it starts any task, with the
arrival counts `readyDML = D`, `readyCommit = D` and `readyDDL = W` for
`D = len(modeFns)` and `W = dmlThread`; so for `D = 0` no mutator is started,
the counters of `readyDML` and `readyCommit` are zero in the wait groups handed
to the tasks, and a `Wait` on either returns at once. -/
theorem C1_barrier_counts (dmlThread : Int) (modeFns : List DdlRandom)
    (hW : 0 ≤ dmlThread) :
    ∃ l, onceLaunch dmlThread modeFns = .ret l ∧
      l.mutators = modeFns ∧ l.dmlThread = dmlThread ∧
      l.barriers.readyDMLWg.counter = (modeFns.length : Int) ∧
      l.barriers.readyCommitWg.counter = (modeFns.length : Int) ∧
      l.barriers.readyDDLWg.counter = dmlThread ∧
      (modeFns.length = 0 →
        l.mutators = [] ∧ l.barriers.readyDMLWg.waitReturns = true ∧
        l.barriers.readyCommitWg.waitReturns = true ∧
        (l.barriers.readyDDLWg.waitReturns = true ↔ dmlThread = 0)) := by
  have h1 : ¬ (0 + dmlThread < 0) := by omega
  have h2 : ¬ ((0 : Int) + (modeFns.length : Int) < 0) := by omega
  refine ⟨Launch.mk (Barriers.mk ⟨0 + dmlThread⟩ ⟨0 + (modeFns.length : Int)⟩ ⟨0 + dmlThread⟩
      ⟨0 + dmlThread⟩ ⟨0 + (modeFns.length : Int)⟩) modeFns dmlThread, ?_, rfl, rfl, ?_, ?_, ?_, ?_⟩
  · simp only [onceLaunch, Barriers.zero, WaitGroup.Add, h1, h2, if_false, Exec.bind]
  · simp
  · simp
  · simp
  · intro hD
    have hnil : modeFns = [] := List.length_eq_zero.mp hD
    subst hnil
    simp [WaitGroup.waitReturns]

/-- C1, with 20 DML workers and no DDL mode selected. -/
theorem C1_barrier_counts_witness :
    ∃ l, onceLaunch 20 [] = .ret l ∧
      l.mutators = [] ∧ l.dmlThread = 20 ∧
      l.barriers.readyDMLWg.counter = (([] : List DdlRandom).length : Int) ∧
      l.barriers.readyCommitWg.counter = (([] : List DdlRandom).length : Int) ∧
      l.barriers.readyDDLWg.counter = 20 ∧
      (([] : List DdlRandom).length = 0 →
        l.mutators = [] ∧ l.barriers.readyDMLWg.waitReturns = true ∧
        l.barriers.readyCommitWg.waitReturns = true ∧
        (l.barriers.readyDDLWg.waitReturns = true ↔ (20 : Int) = 0)) :=
  C1_barrier_counts 20 [] (by decide)

/-! ## Barrier protocol -/

theorem countP_set (p : Nat → Bool) :
    ∀ (l : List Nat) (i a b : Nat), l[i]? = some a →
      (l.set i b).countP p + (if p a then 1 else 0) = l.countP p + (if p b then 1 else 0) := by
  intro l
  induction l with
  | nil => intro i a b h; simp at h
  | cons x l ih =>
    intro i a b h
    cases i with
    | zero =>
      simp at h
      subst h
      simp only [List.set_cons_zero, List.countP_cons]
      omega
    | succ i =>
      simp at h
      have := ih i a b h
      simp only [List.set_cons_succ, List.countP_cons]
      omega

theorem countP_zero_getElem? (p : Nat → Bool) (l : List Nat) (i a : Nat)
    (h0 : l.countP p = 0) (h : l[i]? = some a) : p a = false := by
  rw [List.countP_eq_zero] at h0
  have hm : a ∈ l := List.mem_iff_getElem?.mpr ⟨i, h⟩
  cases hp : p a with
  | false => rfl
  | true => exact absurd hp (h0 a hm)

theorem getElem?_set_cases (l : List Nat) (i j b pc : Nat) (h : (l.set i b)[j]? = some pc) :
    (j = i ∧ pc = b) ∨ (j ≠ i ∧ l[j]? = some pc) := by
  rw [List.getElem?_set] at h
  by_cases hij : i = j
  · subst hij
    rw [if_pos rfl] at h
    left
    split at h
    · simp at h; exact ⟨rfl, h.symm⟩
    · simp at h
  · rw [if_neg hij] at h
    exact Or.inr ⟨fun e => hij e.symm, h⟩

theorem getElem?_append_one (log : List Event) (e x : Event) (j : Nat)
    (h : (log ++ [e])[j]? = some x) :
    (j < log.length ∧ log[j]? = some x) ∨ (j = log.length ∧ x = e) := by
  rcases Nat.lt_or_ge j log.length with hj | hj
  · rw [List.getElem?_append_left hj] at h
    exact Or.inl ⟨hj, h⟩
  · rw [List.getElem?_append_right hj] at h
    right
    cases hk : j - log.length with
    | zero => rw [hk] at h; simp at h; exact ⟨by omega, h.symm⟩
    | succ k => rw [hk] at h; simp at h

theorem getElem?_append_keep (log : List Event) (e x : Event) (i : Nat)
    (h : log[i]? = some x) : (log ++ [e])[i]? = some x := by
  have hi : i < log.length := by
    rcases Nat.lt_or_ge i log.length with h1 | h1
    · exact h1
    · rw [List.getElem?_eq_none h1] at h; simp at h
  rw [List.getElem?_append_left hi]
  exact h

theorem mem_index (log : List Event) (x : Event) (h : x ∈ log) :
    ∃ i, i < log.length ∧ log[i]? = some x := by
  obtain ⟨i, hi⟩ := List.mem_iff_getElem?.mp h
  refine ⟨i, ?_, hi⟩
  rcases Nat.lt_or_ge i log.length with h1 | h1
  · exact h1
  · rw [List.getElem?_eq_none h1] at hi; simp at hi

/-- The orderings of the log survive a new event that is not out of order. -/
theorem ord_append (log : List Event) (e : Event) (a b : Event)
    (hold : ∀ j : Nat, log[j]? = some b → ∃ i : Nat, i < j ∧ log[i]? = some a)
    (hnew : e = b → a ∈ log) :
    ∀ j : Nat, (log ++ [e])[j]? = some b → ∃ i : Nat, i < j ∧ (log ++ [e])[i]? = some a := by
  intro j hj
  rcases getElem?_append_one log e b j hj with ⟨_, h1⟩ | ⟨h1, h2⟩
  · obtain ⟨i, hi1, hi2⟩ := hold j h1
    exact ⟨i, hi1, getElem?_append_keep log e a i hi2⟩
  · obtain ⟨i, hi1, hi2⟩ := mem_index log a (hnew h2.symm)
    exact ⟨i, by omega, getElem?_append_keep log e a i hi2⟩

theorem Done_some (wg wg1 : WaitGroup) (h : wg.Done = some wg1) :
    wg1.counter = wg.counter - 1 ∧ 1 ≤ wg.counter := by
  unfold WaitGroup.Done WaitGroup.Add at h
  by_cases hc : wg.counter + -1 < 0
  · rw [if_pos hc] at h; simp at h
  · rw [if_neg hc] at h
    simp at h
    subst h
    exact ⟨by simp; omega, by omega⟩

theorem waitReturns_iff (wg : WaitGroup) : wg.waitReturns = true ↔ wg.counter = 0 := by
  simp [WaitGroup.waitReturns]

theorem countP_le_set_same (k : Nat) (l : List Nat) (i a b : Nat) (h : l[i]? = some a)
    (hab : a ≤ k ↔ b ≤ k) :
    (l.set i b).countP (fun pc => decide (pc ≤ k)) = l.countP (fun pc => decide (pc ≤ k)) := by
  have := countP_set (fun pc => decide (pc ≤ k)) l i a b h
  by_cases ha : a ≤ k
  · have hb := hab.mp ha
    simp only [ha, hb, decide_True, if_true] at this
    omega
  · have hb : ¬ b ≤ k := fun hb => ha (hab.mpr hb)
    simp only [ha, hb, decide_False, Bool.false_eq_true, if_false] at this
    omega

theorem countP_le_set_drop (k : Nat) (l : List Nat) (i a b : Nat) (h : l[i]? = some a)
    (ha : a ≤ k) (hb : ¬ b ≤ k) :
    (l.set i b).countP (fun pc => decide (pc ≤ k)) + 1 =
      l.countP (fun pc => decide (pc ≤ k)) := by
  have := countP_set (fun pc => decide (pc ≤ k)) l i a b h
  simp only [ha, hb, decide_True, decide_False, Bool.false_eq_true, if_true, if_false] at this
  omega

theorem forall_set (l : List Nat) (i b : Nat) (Q : Nat → Nat → Prop)
    (hold : ∀ (j pc : Nat), l[j]? = some pc → Q j pc) (hnew : Q i b) :
    ∀ (j pc : Nat), (l.set i b)[j]? = some pc → Q j pc := by
  intro j pc h
  rcases getElem?_set_cases l i j b pc h with ⟨h1, h2⟩ | ⟨_, h2⟩
  · subst h1; subst h2; exact hnew
  · exact hold j pc h2

theorem all_past (l : List Nat) (n k : Nat) (hlen : l.length = n)
    (h0 : l.countP (fun pc => decide (pc ≤ k)) = 0) :
    ∀ i, i < n → ∃ pc, l[i]? = some pc ∧ k + 1 ≤ pc := by
  intro i hi
  have hi2 : i < l.length := by omega
  refine ⟨l[i], List.getElem?_eq_getElem hi2, ?_⟩
  have := countP_zero_getElem? _ l i l[i] h0 (List.getElem?_eq_getElem hi2)
  simp at this
  omega

theorem countP_pos_getElem? (k : Nat) (l : List Nat) (i a : Nat) (h : l[i]? = some a)
    (ha : a ≤ k) : 1 ≤ l.countP (fun pc => decide (pc ≤ k)) := by
  have hm : a ∈ l := List.mem_iff_getElem?.mpr ⟨i, h⟩
  exact List.countP_pos_iff.mpr ⟨a, hm, by simpa using ha⟩

theorem mem_append_one (log : List Event) (e x : Event) (h : x ∈ log ++ [e]) (hne : x ≠ e) :
    x ∈ log := by
  rcases List.mem_append.mp h with h1 | h1
  · exact h1
  · simp at h1; exact absurd h1 hne

/-- No DDL statement after a commit: the property survives a new event unless
a DDL statement is logged after some commit. -/
theorem strict_append (log : List Event) (e : Event)
    (hold : ∀ (i j w d : Nat), log[i]? = some (Event.commit w) →
      log[j]? = some (Event.ddl d) → j < i)
    (hnew : ∀ d, e = Event.ddl d → ∀ w, Event.commit w ∉ log) :
    ∀ (i j w d : Nat), (log ++ [e])[i]? = some (Event.commit w) →
      (log ++ [e])[j]? = some (Event.ddl d) → j < i := by
  intro i j w d hi hj
  rcases getElem?_append_one log e _ i hi with ⟨hi1, hi2⟩ | ⟨hi1, hi2⟩
  · rcases getElem?_append_one log e _ j hj with ⟨_, hj2⟩ | ⟨_, hj2⟩
    · exact hold i j w d hi2 hj2
    · exact absurd (List.mem_iff_getElem?.mpr ⟨i, hi2⟩) (hnew d hj2.symm w)
  · rcases getElem?_append_one log e _ j hj with ⟨hj1, _⟩ | ⟨_, hj2⟩
    · omega
    · rw [← hi2] at hj2; simp at hj2

/-- A step of a mutator keeps the invariant of the barrier protocol. -/
theorem stepMutator_inv (D W : Nat) (st st1 : ProtoState) (d : Nat)
    (hinv : ProtoInv D W st) (h : stepMutator st d = some st1) : ProtoInv D W st1 := by
  unfold stepMutator at h
  cases hpc : st.mutPc[d]? with
  | none => rw [hpc] at h; simp at h
  | some pc =>
    rw [hpc] at h
    rcases pc with _ | _ | _ | _ | pc
    · -- signal readyDML
      simp only [] at h
      cases hd : st.readyDML.Done with
      | none => rw [hd] at h; simp at h
      | some wg =>
        rw [hd] at h
        simp only [Option.map_some', Option.some.injEq] at h
        subst h
        obtain ⟨hc1, hc2⟩ := Done_some _ _ hd
        have k1 := countP_le_set_drop 0 st.mutPc d 0 1 hpc (by omega) (by omega)
        have k2 := countP_le_set_same 3 st.mutPc d 0 1 hpc (by omega)
        have a1 := hinv.cDML
        have a2 := hinv.cCommit
        exact
          { lenM := by simp [hinv.lenM]
            lenW := hinv.lenW
            cDML := by simp only []; omega
            cDDL := hinv.cDDL
            cCommit := by simp only []; omega
            wOpened := hinv.wOpened
            mDdl := forall_set _ _ _ (fun d pc => 3 ≤ pc → Event.ddl d ∈ st.log) hinv.mDdl
              (by intro h3; omega)
            mPast := forall_set _ _ _ (fun _ pc => 2 ≤ pc → ∀ w, w < W → Event.opened w ∈ st.log)
              hinv.mPast (by intro h3; omega)
            wPast := hinv.wPast
            ordDdl := hinv.ordDdl
            ordCommit := hinv.ordCommit
            wGate := hinv.wGate
            cGate := hinv.cGate
            ordStrict := hinv.ordStrict }
    · -- wait on readyDDL
      simp only [Nat.zero_add] at h
      by_cases hw : st.readyDDL.waitReturns = true
      · rw [if_pos hw] at h
        simp only [Option.some.injEq] at h
        subst h
        have hz := (waitReturns_iff _).mp hw
        have k1 := countP_le_set_same 0 st.mutPc d 1 2 hpc (by omega)
        have k2 := countP_le_set_same 3 st.mutPc d 1 2 hpc (by omega)
        have a1 := hinv.cDML
        have a2 := hinv.cCommit
        have a3 := hinv.cDDL
        have hall := all_past st.wrkPc W 2 hinv.lenW (by omega)
        exact
          { lenM := by simp [hinv.lenM]
            lenW := hinv.lenW
            cDML := by simp only []; omega
            cDDL := hinv.cDDL
            cCommit := by simp only []; omega
            wOpened := hinv.wOpened
            mDdl := forall_set _ _ _ (fun d pc => 3 ≤ pc → Event.ddl d ∈ st.log) hinv.mDdl
              (by intro h3; omega)
            mPast := forall_set _ _ _ (fun _ pc => 2 ≤ pc → ∀ w, w < W → Event.opened w ∈ st.log)
              hinv.mPast
              (by
                intro _ w hwW
                obtain ⟨pc, hp1, hp2⟩ := hall w hwW
                exact hinv.wOpened w pc hp1 (by omega))
            wPast := hinv.wPast
            ordDdl := hinv.ordDdl
            ordCommit := hinv.ordCommit
            wGate := hinv.wGate
            cGate := hinv.cGate
            ordStrict := hinv.ordStrict }
      · rw [if_neg hw] at h; simp at h
    · -- issue the DDL statement
      simp only [Nat.zero_add, Option.some.injEq] at h
      subst h
      have k1 := countP_le_set_same 0 st.mutPc d 2 3 hpc (by omega)
      have k2 := countP_le_set_same 3 st.mutPc d 2 3 hpc (by omega)
      have a1 := hinv.cDML
      have a2 := hinv.cCommit
      exact
        { lenM := by simp [hinv.lenM]
          lenW := hinv.lenW
          cDML := by simp only []; omega
          cDDL := hinv.cDDL
          cCommit := by simp only []; omega
          wOpened := fun w pc h1 h2 => List.mem_append_left _ (hinv.wOpened w pc h1 h2)
          mDdl := forall_set _ _ _ (fun d1 pc => 3 ≤ pc → Event.ddl d1 ∈ st.log ++ [Event.ddl d])
            (fun d1 pc h1 h2 => List.mem_append_left _ (hinv.mDdl d1 pc h1 h2))
            (by intro _; simp)
          mPast := forall_set _ _ _
            (fun _ pc => 2 ≤ pc → ∀ w, w < W → Event.opened w ∈ st.log ++ [Event.ddl d])
            (fun d1 pc h1 h2 w hwW => List.mem_append_left _ (hinv.mPast d1 pc h1 h2 w hwW))
            (by intro _ w hwW; exact List.mem_append_left _ (hinv.mPast d 2 hpc (by omega) w hwW))
          wPast := fun w pc h1 h2 d1 hd1 => List.mem_append_left _ (hinv.wPast w pc h1 h2 d1 hd1)
          ordDdl := fun j d1 hj w hwW =>
            ord_append st.log (Event.ddl d) (Event.opened w) (Event.ddl d1)
              (fun j1 hj1 => hinv.ordDdl j1 d1 hj1 w hwW)
              (fun _ => hinv.mPast d 2 hpc (by omega) w hwW) j hj
          ordCommit := fun j w hj d1 hd1 =>
            ord_append st.log (Event.ddl d) (Event.ddl d1) (Event.commit w)
              (fun j1 hj1 => hinv.ordCommit j1 w hj1 d1 hd1)
              (fun he => by simp at he) j hj
          wGate := hinv.wGate
          cGate := fun w hw => hinv.cGate w (mem_append_one _ _ _ hw (by simp))
          ordStrict := strict_append st.log (Event.ddl d) hinv.ordStrict
            (by
              intro _ _ w hw
              have c1 := hinv.cGate w hw
              have c2 := countP_pos_getElem? 3 st.mutPc d 2 hpc (by omega)
              omega) }
    · -- signal readyCommit
      simp only [Nat.zero_add] at h
      cases hd : st.readyCommit.Done with
      | none => rw [hd] at h; simp at h
      | some wg =>
        rw [hd] at h
        simp only [Option.map_some', Option.some.injEq] at h
        subst h
        obtain ⟨hc1, hc2⟩ := Done_some _ _ hd
        have k1 := countP_le_set_same 0 st.mutPc d 3 4 hpc (by omega)
        have k2 := countP_le_set_drop 3 st.mutPc d 3 4 hpc (by omega) (by omega)
        have a1 := hinv.cDML
        have a2 := hinv.cCommit
        exact
          { lenM := by simp [hinv.lenM]
            lenW := hinv.lenW
            cDML := by simp only []; omega
            cDDL := hinv.cDDL
            cCommit := by simp only []; omega
            wOpened := hinv.wOpened
            mDdl := forall_set _ _ _ (fun d pc => 3 ≤ pc → Event.ddl d ∈ st.log) hinv.mDdl
              (by intro _; exact hinv.mDdl d 3 hpc (by omega))
            mPast := forall_set _ _ _ (fun _ pc => 2 ≤ pc → ∀ w, w < W → Event.opened w ∈ st.log)
              hinv.mPast (by intro _ w hwW; exact hinv.mPast d 3 hpc (by omega) w hwW)
            wPast := hinv.wPast
            ordDdl := hinv.ordDdl
            ordCommit := hinv.ordCommit
            wGate := fun w pc h1 h2 => by
              have := hinv.wGate w pc h1 h2
              simp only []; omega
            cGate := fun w hw => by
              have := hinv.cGate w hw
              simp only []; omega
            ordStrict := hinv.ordStrict }
    · simp at h

/-- A step of a worker keeps the invariant of the barrier protocol. -/
theorem stepWorker_inv (D W : Nat) (st st1 : ProtoState) (w : Nat)
    (hinv : ProtoInv D W st) (h : stepWorker st w = some st1) : ProtoInv D W st1 := by
  unfold stepWorker at h
  cases hpc : st.wrkPc[w]? with
  | none => rw [hpc] at h; simp at h
  | some pc =>
    rw [hpc] at h
    rcases pc with _ | _ | _ | _ | _ | pc
    · -- wait on readyDML
      simp only [] at h
      by_cases hw : st.readyDML.waitReturns = true
      · rw [if_pos hw] at h
        simp only [Option.some.injEq] at h
        subst h
        have k1 := countP_le_set_same 2 st.wrkPc w 0 1 hpc (by omega)
        have a1 := hinv.cDDL
        exact
          { lenM := hinv.lenM
            lenW := by simp [hinv.lenW]
            cDML := hinv.cDML
            cDDL := by simp only []; omega
            cCommit := hinv.cCommit
            wOpened := forall_set _ _ _ (fun w pc => 2 ≤ pc → Event.opened w ∈ st.log)
              hinv.wOpened (by intro h3; omega)
            mDdl := hinv.mDdl
            mPast := hinv.mPast
            wPast := forall_set _ _ _ (fun _ pc => 4 ≤ pc → ∀ d, d < D → Event.ddl d ∈ st.log)
              hinv.wPast (by intro h3; omega)
            ordDdl := hinv.ordDdl
            ordCommit := hinv.ordCommit
            wGate := forall_set _ _ _ (fun _ pc => 4 ≤ pc → st.readyCommit.counter ≤ 0) hinv.wGate
              (by intro h3; omega)
            cGate := hinv.cGate
            ordStrict := hinv.ordStrict }
      · rw [if_neg hw] at h; simp at h
    · -- open the transaction
      simp only [Nat.zero_add, Option.some.injEq] at h
      subst h
      have k1 := countP_le_set_same 2 st.wrkPc w 1 2 hpc (by omega)
      have a1 := hinv.cDDL
      exact
        { lenM := hinv.lenM
          lenW := by simp [hinv.lenW]
          cDML := hinv.cDML
          cDDL := by simp only []; omega
          cCommit := hinv.cCommit
          wOpened := forall_set _ _ _
            (fun w1 pc => 2 ≤ pc → Event.opened w1 ∈ st.log ++ [Event.opened w])
            (fun w1 pc h1 h2 => List.mem_append_left _ (hinv.wOpened w1 pc h1 h2))
            (by intro _; simp)
          mDdl := fun d pc h1 h2 => List.mem_append_left _ (hinv.mDdl d pc h1 h2)
          mPast := fun d pc h1 h2 w1 hw1 => List.mem_append_left _ (hinv.mPast d pc h1 h2 w1 hw1)
          wPast := forall_set _ _ _
            (fun _ pc => 4 ≤ pc → ∀ d, d < D → Event.ddl d ∈ st.log ++ [Event.opened w])
            (fun w1 pc h1 h2 d hd => List.mem_append_left _ (hinv.wPast w1 pc h1 h2 d hd))
            (by intro h3; omega)
          ordDdl := fun j d hj w1 hw1 =>
            ord_append st.log (Event.opened w) (Event.opened w1) (Event.ddl d)
              (fun j1 hj1 => hinv.ordDdl j1 d hj1 w1 hw1)
              (fun he => by simp at he) j hj
          ordCommit := fun j w1 hj d hd =>
            ord_append st.log (Event.opened w) (Event.ddl d) (Event.commit w1)
              (fun j1 hj1 => hinv.ordCommit j1 w1 hj1 d hd)
              (fun he => by simp at he) j hj
          wGate := forall_set _ _ _ (fun _ pc => 4 ≤ pc → st.readyCommit.counter ≤ 0) hinv.wGate
            (by intro h3; omega)
          cGate := fun w1 hw => hinv.cGate w1 (mem_append_one _ _ _ hw (by simp))
          ordStrict := strict_append st.log (Event.opened w) hinv.ordStrict
            (by intro _ he; simp at he) }
    · -- signal readyDDL
      simp only [Nat.zero_add] at h
      cases hd : st.readyDDL.Done with
      | none => rw [hd] at h; simp at h
      | some wg =>
        rw [hd] at h
        simp only [Option.map_some', Option.some.injEq] at h
        subst h
        obtain ⟨hc1, hc2⟩ := Done_some _ _ hd
        have k1 := countP_le_set_drop 2 st.wrkPc w 2 3 hpc (by omega) (by omega)
        have a1 := hinv.cDDL
        exact
          { lenM := hinv.lenM
            lenW := by simp [hinv.lenW]
            cDML := hinv.cDML
            cDDL := by simp only []; omega
            cCommit := hinv.cCommit
            wOpened := forall_set _ _ _ (fun w pc => 2 ≤ pc → Event.opened w ∈ st.log)
              hinv.wOpened (by intro _; exact hinv.wOpened w 2 hpc (by omega))
            mDdl := hinv.mDdl
            mPast := hinv.mPast
            wPast := forall_set _ _ _ (fun _ pc => 4 ≤ pc → ∀ d, d < D → Event.ddl d ∈ st.log)
              hinv.wPast (by intro h3; omega)
            ordDdl := hinv.ordDdl
            ordCommit := hinv.ordCommit
            wGate := forall_set _ _ _ (fun _ pc => 4 ≤ pc → st.readyCommit.counter ≤ 0) hinv.wGate
              (by intro h3; omega)
            cGate := hinv.cGate
            ordStrict := hinv.ordStrict }
    · -- wait on readyCommit
      simp only [Nat.zero_add] at h
      by_cases hw : st.readyCommit.waitReturns = true
      · rw [if_pos hw] at h
        simp only [Option.some.injEq] at h
        subst h
        have hz := (waitReturns_iff _).mp hw
        have k1 := countP_le_set_same 2 st.wrkPc w 3 4 hpc (by omega)
        have a1 := hinv.cDDL
        have a2 := hinv.cCommit
        have hall := all_past st.mutPc D 3 hinv.lenM (by omega)
        exact
          { lenM := hinv.lenM
            lenW := by simp [hinv.lenW]
            cDML := hinv.cDML
            cDDL := by simp only []; omega
            cCommit := hinv.cCommit
            wOpened := forall_set _ _ _ (fun w pc => 2 ≤ pc → Event.opened w ∈ st.log)
              hinv.wOpened (by intro _; exact hinv.wOpened w 3 hpc (by omega))
            mDdl := hinv.mDdl
            mPast := hinv.mPast
            wPast := forall_set _ _ _ (fun _ pc => 4 ≤ pc → ∀ d, d < D → Event.ddl d ∈ st.log)
              hinv.wPast
              (by
                intro _ d hdD
                obtain ⟨pc, hp1, hp2⟩ := hall d hdD
                exact hinv.mDdl d pc hp1 (by omega))
            ordDdl := hinv.ordDdl
            ordCommit := hinv.ordCommit
            wGate := forall_set _ _ _ (fun _ pc => 4 ≤ pc → st.readyCommit.counter ≤ 0) hinv.wGate
              (by intro _; omega)
            cGate := hinv.cGate
            ordStrict := hinv.ordStrict }
      · rw [if_neg hw] at h; simp at h
    · -- commit
      simp only [Nat.zero_add, Option.some.injEq] at h
      subst h
      have k1 := countP_le_set_same 2 st.wrkPc w 4 5 hpc (by omega)
      have a1 := hinv.cDDL
      exact
        { lenM := hinv.lenM
          lenW := by simp [hinv.lenW]
          cDML := hinv.cDML
          cDDL := by simp only []; omega
          cCommit := hinv.cCommit
          wOpened := forall_set _ _ _
            (fun w1 pc => 2 ≤ pc → Event.opened w1 ∈ st.log ++ [Event.commit w])
            (fun w1 pc h1 h2 => List.mem_append_left _ (hinv.wOpened w1 pc h1 h2))
            (by intro _; exact List.mem_append_left _ (hinv.wOpened w 4 hpc (by omega)))
          mDdl := fun d pc h1 h2 => List.mem_append_left _ (hinv.mDdl d pc h1 h2)
          mPast := fun d pc h1 h2 w1 hw1 => List.mem_append_left _ (hinv.mPast d pc h1 h2 w1 hw1)
          wPast := forall_set _ _ _
            (fun _ pc => 4 ≤ pc → ∀ d, d < D → Event.ddl d ∈ st.log ++ [Event.commit w])
            (fun w1 pc h1 h2 d hd => List.mem_append_left _ (hinv.wPast w1 pc h1 h2 d hd))
            (by
              intro _ d hd
              exact List.mem_append_left _ (hinv.wPast w 4 hpc (by omega) d hd))
          ordDdl := fun j d hj w1 hw1 =>
            ord_append st.log (Event.commit w) (Event.opened w1) (Event.ddl d)
              (fun j1 hj1 => hinv.ordDdl j1 d hj1 w1 hw1)
              (fun he => by simp at he) j hj
          ordCommit := fun j w1 hj d hd =>
            ord_append st.log (Event.commit w) (Event.ddl d) (Event.commit w1)
              (fun j1 hj1 => hinv.ordCommit j1 w1 hj1 d hd)
              (fun _ => hinv.wPast w 4 hpc (by omega) d hd) j hj
          wGate := forall_set _ _ _ (fun _ pc => 4 ≤ pc → st.readyCommit.counter ≤ 0) hinv.wGate
            (by intro _; exact hinv.wGate w 4 hpc (by omega))
          cGate := fun _ _ => hinv.wGate w 4 hpc (by omega)
          ordStrict := strict_append st.log (Event.commit w) hinv.ordStrict
            (by intro _ he; simp at he) }
    · simp at h

/-- Every run of a schedule keeps the invariant of the barrier protocol. -/
theorem runSchedule_inv (D W : Nat) :
    ∀ (sched : List TaskId) (st st1 : ProtoState), ProtoInv D W st →
      runSchedule st sched = some st1 → ProtoInv D W st1 := by
  intro sched
  induction sched with
  | nil =>
    intro st st1 hinv h
    simp only [runSchedule, Option.some.injEq] at h
    subst h
    exact hinv
  | cons t rest ih =>
    intro st st1 hinv h
    rw [runSchedule] at h
    cases hs : stepTask st t with
    | none => rw [hs] at h; simp at h
    | some st2 =>
      rw [hs] at h
      simp only [] at h
      refine ih st2 st1 ?_ h
      cases t with
      | mutator d => exact stepMutator_inv D W st st2 d hinv hs
      | worker w => exact stepWorker_inv D W st st2 w hinv hs

/-- The state in which `once` leaves the tasks satisfies the invariant. -/
theorem protoInit_inv (dmlThread : Int) (modeFns : List DdlRandom) (l : Launch)
    (h : onceLaunch dmlThread modeFns = .ret l) :
    ProtoInv modeFns.length dmlThread.toNat (protoInit l) := by
  unfold onceLaunch at h
  simp only [Barriers.zero, WaitGroup.Add, Exec.bind, zero_add] at h
  by_cases h1 : dmlThread < 0
  · simp [h1] at h
  · have h2 : ¬ ((modeFns.length : Int) < 0) := by omega
    simp only [h1, h2, if_false, Exec.ret.injEq] at h
    subst h
    have hc : ∀ (k n : Nat), (List.replicate n 0).countP (fun pc => decide (pc ≤ k)) = n := by
      intro k n
      rw [List.countP_replicate]
      simp
    have hm : ∀ (k : Nat), (modeFns.map fun _ => 0).countP (fun pc => decide (pc ≤ k)) =
        modeFns.length := by
      intro k
      rw [List.countP_map]
      have : ((fun pc => decide (pc ≤ k)) ∘ fun (_ : DdlRandom) => 0) = fun _ => true := by
        funext x; simp
      rw [this, List.countP_true]
    exact
      { lenM := by simp [protoInit]
        lenW := by simp [protoInit]
        cDML := by simp only [protoInit, hm]; omega
        cDDL := by simp only [protoInit, hc]; omega
        cCommit := by simp only [protoInit, hm]; omega
        wOpened := by
          intro w pc hw h2
          simp only [protoInit] at hw
          have : pc ∈ List.replicate dmlThread.toNat 0 := List.mem_iff_getElem?.mpr ⟨w, hw⟩
          rw [List.mem_replicate] at this
          omega
        mDdl := by
          intro d pc hd h2
          simp only [protoInit] at hd
          have : pc ∈ modeFns.map fun _ => 0 := List.mem_iff_getElem?.mpr ⟨d, hd⟩
          simp at this
          omega
        mPast := by
          intro d pc hd h2
          simp only [protoInit] at hd
          have : pc ∈ modeFns.map fun _ => 0 := List.mem_iff_getElem?.mpr ⟨d, hd⟩
          simp at this
          omega
        wPast := by
          intro w pc hw h2
          simp only [protoInit] at hw
          have : pc ∈ List.replicate dmlThread.toNat 0 := List.mem_iff_getElem?.mpr ⟨w, hw⟩
          rw [List.mem_replicate] at this
          omega
        ordDdl := by intro j d hj; simp [protoInit] at hj
        ordCommit := by intro j w hj; simp [protoInit] at hj
        wGate := by
          intro w pc hw h2
          simp only [protoInit] at hw
          have : pc ∈ List.replicate dmlThread.toNat 0 := List.mem_iff_getElem?.mpr ⟨w, hw⟩
          rw [List.mem_replicate] at this
          omega
        cGate := by intro w hw; simp [protoInit] at hw
        ordStrict := by intro i j w d hi; simp [protoInit] at hi }

/-- C9: for every interleaving of the `D` mutators and `W` workers started by
`once` under the three barriers, every DDL statement in the log comes after
the "opened transaction" entry of every worker (so after the earliest one),
every commit comes after the DDL statement of every mutator (so after the
latest one), and no DDL statement is logged after a commit. -/
theorem C9_barrier_ordering (dmlThread : Int) (modeFns : List DdlRandom) (l : Launch)
    (sched : List TaskId) (st : ProtoState)
    (hl : onceLaunch dmlThread modeFns = .ret l)
    (hr : runSchedule (protoInit l) sched = some st) :
    (∀ (j d : Nat), st.log[j]? = some (Event.ddl d) →
      ∀ w, w < dmlThread.toNat → ∃ i : Nat, i < j ∧ st.log[i]? = some (Event.opened w)) ∧
    (∀ (j w : Nat), st.log[j]? = some (Event.commit w) →
      ∀ d, d < modeFns.length → ∃ i : Nat, i < j ∧ st.log[i]? = some (Event.ddl d)) ∧
    (∀ (i j w d : Nat), st.log[i]? = some (Event.commit w) →
      st.log[j]? = some (Event.ddl d) → j < i) := by
  have hinv := runSchedule_inv modeFns.length dmlThread.toNat sched (protoInit l) st
    (protoInit_inv dmlThread modeFns l hl) hr
  exact ⟨hinv.ordDdl, hinv.ordCommit, hinv.ordStrict⟩

/-- C9, on a complete run of one mutator and two workers. -/
theorem C9_barrier_ordering_witness :
    ∃ l st, onceLaunch 2 [DdlRandom.AddColumn] = .ret l ∧
      runSchedule (protoInit l) scheduleOneTwo = some st ∧
      st.mutPc = [4] ∧ st.wrkPc = [5, 5] ∧
      st.log = [Event.opened 1, Event.opened 0, Event.ddl 0, Event.commit 0, Event.commit 1] ∧
      ((∀ (j d : Nat), st.log[j]? = some (Event.ddl d) →
        ∀ w, w < (2 : Int).toNat → ∃ i : Nat, i < j ∧ st.log[i]? = some (Event.opened w)) ∧
      (∀ (j w : Nat), st.log[j]? = some (Event.commit w) →
        ∀ d, d < [DdlRandom.AddColumn].length →
          ∃ i : Nat, i < j ∧ st.log[i]? = some (Event.ddl d)) ∧
      (∀ (i j w d : Nat), st.log[i]? = some (Event.commit w) →
        st.log[j]? = some (Event.ddl d) → j < i)) :=
  ⟨_, _, rfl, rfl, rfl, rfl, rfl,
    C9_barrier_ordering 2 [DdlRandom.AddColumn] _ scheduleOneTwo _ rfl rfl⟩

theorem onceLaunch_eq (dmlThread : Int) (modeFns : List DdlRandom) (l : Launch)
    (h : onceLaunch dmlThread modeFns = .ret l) :
    0 ≤ dmlThread ∧
      l = Launch.mk (Barriers.mk ⟨dmlThread⟩ ⟨(modeFns.length : Int)⟩ ⟨dmlThread⟩ ⟨dmlThread⟩
        ⟨(modeFns.length : Int)⟩) modeFns dmlThread := by
  unfold onceLaunch at h
  simp only [Barriers.zero, WaitGroup.Add, Exec.bind, zero_add] at h
  by_cases h1 : dmlThread < 0
  · simp [h1] at h
  · have h2 : ¬ ((modeFns.length : Int) < 0) := by omega
    simp only [h1, h2, if_false, Exec.ret.injEq] at h
    exact ⟨by omega, h.symm⟩

/-- Without mutators no step touches `readyDML` or `readyCommit`. -/
theorem stepTask_noDdl (st st1 : ProtoState) (t : TaskId) (hm : st.mutPc = [])
    (h : stepTask st t = some st1) :
    st1.mutPc = [] ∧ st1.readyDML = st.readyDML ∧ st1.readyCommit = st.readyCommit := by
  cases t with
  | mutator d =>
    simp only [stepTask, stepMutator, hm, List.getElem?_nil] at h
    simp at h
  | worker w =>
    simp only [stepTask, stepWorker] at h
    cases hpc : st.wrkPc[w]? with
    | none => rw [hpc] at h; simp at h
    | some pc =>
      rw [hpc] at h
      rcases pc with _ | _ | _ | _ | _ | pc
      · simp only [] at h
        split at h
        · simp only [Option.some.injEq] at h; subst h; exact ⟨hm, rfl, rfl⟩
        · simp at h
      · simp only [Nat.zero_add, Option.some.injEq] at h; subst h; exact ⟨hm, rfl, rfl⟩
      · simp only [Nat.zero_add] at h
        cases hd : st.readyDDL.Done with
        | none => rw [hd] at h; simp at h
        | some wg =>
          rw [hd] at h
          simp only [Option.map_some', Option.some.injEq] at h
          subst h
          exact ⟨hm, rfl, rfl⟩
      · simp only [Nat.zero_add] at h
        split at h
        · simp only [Option.some.injEq] at h; subst h; exact ⟨hm, rfl, rfl⟩
        · simp at h
      · simp only [Nat.zero_add, Option.some.injEq] at h; subst h; exact ⟨hm, rfl, rfl⟩
      · simp at h

theorem runSchedule_noDdl :
    ∀ (sched : List TaskId) (st st1 : ProtoState), st.mutPc = [] →
      runSchedule st sched = some st1 →
      st1.readyDML = st.readyDML ∧ st1.readyCommit = st.readyCommit := by
  intro sched
  induction sched with
  | nil =>
    intro st st1 _ h
    simp only [runSchedule, Option.some.injEq] at h
    subst h
    exact ⟨rfl, rfl⟩
  | cons t rest ih =>
    intro st st1 hm h
    rw [runSchedule] at h
    cases hs : stepTask st t with
    | none => rw [hs] at h; simp at h
    | some st2 =>
      rw [hs] at h
      simp only [] at h
      obtain ⟨h1, h2, h3⟩ := stepTask_noDdl st st2 t hm hs
      obtain ⟨h4, h5⟩ := ih st2 st1 h1 h
      exact ⟨h4.trans h2, h5.trans h3⟩

/-- With no DDL mode selected, in every state that the tasks can reach, the
waits on `readyDML` and `readyCommit` return at once and every unfinished
worker can take its next step. -/
theorem workers_not_held_without_ddl (dmlThread : Int) (l : Launch) (sched : List TaskId)
    (st : ProtoState) (hl : onceLaunch dmlThread [] = .ret l)
    (hr : runSchedule (protoInit l) sched = some st) :
    st.readyDML.waitReturns = true ∧ st.readyCommit.waitReturns = true ∧
      ∀ (w pc : Nat), st.wrkPc[w]? = some pc → pc < 5 → ∃ st1, stepWorker st w = some st1 := by
  have hinv := runSchedule_inv 0 dmlThread.toNat sched (protoInit l) st
    (protoInit_inv dmlThread [] l hl) hr
  obtain ⟨_, hl2⟩ := onceLaunch_eq dmlThread [] l hl
  have hzero : (protoInit l).readyDML.counter = 0 ∧ (protoInit l).readyCommit.counter = 0 := by
    rw [hl2]
    simp [protoInit]
  have hmut : (protoInit l).mutPc = [] := by
    rw [hl2]
    simp [protoInit]
  obtain ⟨e1, e2⟩ := runSchedule_noDdl sched (protoInit l) st hmut hr
  have w1 : st.readyDML.waitReturns = true := by
    rw [waitReturns_iff, e1]; exact hzero.1
  have w2 : st.readyCommit.waitReturns = true := by
    rw [waitReturns_iff, e2]; exact hzero.2
  refine ⟨w1, w2, ?_⟩
  intro w pc hw hpc
  unfold stepWorker
  rw [hw]
  rcases pc with _ | _ | _ | _ | _ | pc
  · simp only [w1, if_true]; exact ⟨_, rfl⟩
  · exact ⟨_, rfl⟩
  · have c1 := hinv.cDDL
    have c2 := countP_pos_getElem? 2 st.wrkPc w 2 hw (by omega)
    have hc : ¬ (st.readyDDL.counter + -1 < 0) := by omega
    simp only [Nat.zero_add, WaitGroup.Done, WaitGroup.Add, hc, if_false, Option.map_some']
    exact ⟨_, rfl⟩
  · simp only [Nat.zero_add, w2, if_true]; exact ⟨_, rfl⟩
  · exact ⟨_, rfl⟩
  · omega

end AmendRandom
